import Mathlib

/-!
Shallow embedding of the task-scheduler core (store, validator, scheduler,
recovery) and proofs about it.

The embedding follows the TypeScript source:
* `DatabaseManager` (src/storage/database.ts): the SQLite table is modelled as a
  `List TaskRow` in insertion order; `ORDER BY created_at ASC` is a stable merge
  sort keyed on `created_at` (SQLite enumerates tied rows in rowid = insertion
  order, and the JS `Array.prototype.sort` used by the scheduler is stable);
  `WHERE id = ? AND version = ?` updates are a guarded map over the rows.
* `TaskValidator` (src/engine/validator.ts): input checks in source order, the
  `Map`-based dependency graph as an association list (row ids are unique by
  the PRIMARY KEY constraint, so first-match lookup agrees with `Map.get`), and
  the visited-set DFS `hasCycle` with an explicit fuel argument large enough to
  never be exhausted (the JS recursion terminates because the visited set grows;
  the fuel bound is proved sufficient below).
* `TaskExecutor` (src/engine/executor.ts): `scheduleNextTasks`, `executeTask`
  and `recoverOrphanedTasks`.  JS `undefined` fields of a partial update are
  modelled as `none`; `updateTaskStatus` skips exactly the fields that fail its
  `!== undefined` guards.  Scheduler ticks, terminal runner writes, recovery,
  crash/restart and submissions form the step relation `Step`.
-/

namespace TaskScheduler

/-- Status enum from src/types/task.ts. -/
inductive TaskStatus where
  | QUEUED
  | RUNNING
  | COMPLETED
  | FAILED
  | WAITING
deriving DecidableEq, Repr

/-- One row of the `tasks` table (all columns of the schema in database.ts). -/
structure TaskRow where
  id : String
  type : String
  duration_ms : Int
  dependencies : List String
  status : TaskStatus
  created_at : Nat
  started_at : Option Nat
  completed_at : Option Nat
  error : Option String
  retry_count : Nat
  version : Nat
deriving DecidableEq, Repr

/-- Submission payload (TaskInput in src/types/task.ts); `dependencies` is
optional and defaults to the empty list. -/
structure TaskInput where
  id : String
  type : String
  duration_ms : Int
  dependencies : Option (List String)
deriving DecidableEq, Repr

/-- Partial update argument of `updateTaskStatus`.  A field is `none` when the
JS caller leaves it `undefined`; such fields fail the `!== undefined` guard in
`updateTaskStatus` and are not written. -/
structure StatusUpdates where
  started_at : Option Nat := none
  completed_at : Option Nat := none
  error : Option String := none
  retry_count : Option Nat := none
deriving DecidableEq, Repr

/-- The persisted store: rows in insertion order. -/
abbrev Store := List TaskRow

/-- Insert a row into a list sorted by `created_at`, after any rows with the
same timestamp (the stable position). -/
def insertByCreated (t : TaskRow) : List TaskRow → List TaskRow
  | [] => [t]
  | a :: l => if t.created_at < a.created_at then t :: a :: l else a :: insertByCreated t l

/-- Stable sort by `created_at` ascending, modelling `ORDER BY created_at ASC`
(ties keep rowid = insertion order) and the scheduler's stable JS sort.  A
stable insertion sort and the engines' sorts agree on every input. -/
def byCreated (l : List TaskRow) : List TaskRow :=
  l.foldl (fun acc t => insertByCreated t acc) []

/-- DatabaseManager.getTask: `SELECT * FROM tasks WHERE id = ?` (first row). -/
def getTask (store : Store) (taskId : String) : Option TaskRow :=
  store.find? (fun t => t.id == taskId)

/-- DatabaseManager.getAllTasks: all rows ordered by `created_at` ascending. -/
def getAllTasks (store : Store) : List TaskRow :=
  byCreated store

/-- DatabaseManager.getTasksByStatus: rows of one status by `created_at`. -/
def getTasksByStatus (store : Store) (status : TaskStatus) : List TaskRow :=
  byCreated (store.filter (fun t => t.status == status))

/-- Row transformation applied by the UPDATE statement of `updateTaskStatus` to
each matched row: set the status, bump the version, and write exactly the
supplied partial fields. -/
def applyUpdates (t : TaskRow) (newStatus : TaskStatus) (u : StatusUpdates) : TaskRow :=
  { t with
    status := newStatus
    version := t.version + 1
    started_at := match u.started_at with | some v => some v | none => t.started_at
    completed_at := match u.completed_at with | some v => some v | none => t.completed_at
    error := match u.error with | some v => some v | none => t.error
    retry_count := match u.retry_count with | some v => v | none => t.retry_count }

/-- DatabaseManager.updateTaskStatus: the version-gated UPDATE.  Returns
`result.changes > 0` together with the new table contents; a row is written iff
its id and version both match. -/
def updateTaskStatus (store : Store) (taskId : String) (newStatus : TaskStatus)
    (currentVersion : Nat) (u : StatusUpdates) : Bool × Store :=
  (store.any (fun t => t.id == taskId && t.version == currentVersion),
   store.map (fun t =>
     if t.id == taskId && t.version == currentVersion then applyUpdates t newStatus u else t))

/-- DatabaseManager.getTaskWithVersion. -/
def getTaskWithVersion (store : Store) (taskId : String) : Option (TaskRow × Nat) :=
  (getTask store taskId).map (fun t => (t, t.version))

/-- DatabaseManager.insertTask: INSERT with `version = 0`; an id collision
violates the PRIMARY KEY constraint and reports failure, leaving the table
unchanged. -/
def insertTask (store : Store) (t : TaskRow) : Bool × Store :=
  if store.any (fun u => u.id == t.id) then (false, store)
  else (true, store ++ [{ t with version := 0 }])

/-- DatabaseManager.getReadyTasks: tasks in QUEUED or WAITING all of whose
dependencies are COMPLETED, computed on the `getAllTasks` snapshot. -/
def getReadyTasks (store : Store) : List TaskRow :=
  let tasks := getAllTasks store
  let completedIds := (tasks.filter (fun t => t.status == TaskStatus.COMPLETED)).map TaskRow.id
  tasks.filter (fun t =>
    (t.status == TaskStatus.QUEUED || t.status == TaskStatus.WAITING)
      && t.dependencies.all (fun d => completedIds.contains d))

/-- DatabaseManager.getOrphanedTasks: all RUNNING rows. -/
def getOrphanedTasks (store : Store) : List TaskRow :=
  getTasksByStatus store TaskStatus.RUNNING

/-! Validator (src/engine/validator.ts). -/

/-- Dependency graph used by `detectCycle`: each task id maps to its dependency
list.  Modelled as an association list read through first-match `lookup`; row
ids are unique (PRIMARY KEY), so this agrees with the JS `Map`. -/
def buildGraph (store : Store) : List (String × List String) :=
  store.map (fun t => (t.id, t.dependencies))

/-- All node names occurring in a graph (keys and dependency entries); used
only to size the DFS fuel. -/
def nodeList (g : List (String × List String)) : List String :=
  g.foldr (fun p acc => p.1 :: p.2 ++ acc) []

/-- Fuel bound for the DFS: more than the number of node occurrences, so the
recursion (which marks an unvisited node at every level) never exhausts it. -/
def dfsFuel (g : List (String × List String)) : Nat :=
  (nodeList g).length + 1

/-- TaskValidator.hasCycle: depth-first search for `target` starting at
`current`, sharing the visited set across sibling calls (the JS code mutates
one `Set`); returns the final visited set alongside the answer. -/
def hasCycleAux (g : List (String × List String)) (target : String) :
    Nat → String → List String → Bool × List String
  | 0, _, visited => (false, visited)
  | fuel + 1, current, visited =>
    if current = target then (true, visited)
    else if current ∈ visited then (false, visited)
    else
      ((g.lookup current).getD []).foldl
        (fun acc d => if acc.1 then acc else hasCycleAux g target fuel d acc.2)
        (false, current :: visited)

/-- The fold inside `hasCycleAux`, named so that proofs can induct on the
dependency list. -/
def hasCycleFold (g : List (String × List String)) (target : String) (fuel : Nat)
    (acc : Bool × List String) (l : List String) : Bool × List String :=
  l.foldl (fun acc d => if acc.1 then acc else hasCycleAux g target fuel d acc.2) acc

/-- TaskValidator.detectCycle: insert the candidate edges, then DFS from each
new dependency (fresh visited set per dependency) looking for the new id; the
first hit produces the error. -/
def detectCycle (store : Store) (newTaskId : String) (newDependencies : List String) :
    Option String :=
  let g := (newTaskId, newDependencies) :: buildGraph store
  (newDependencies.find? (fun d => (hasCycleAux g newTaskId (dfsFuel g) d []).1)).map
    (fun d => "Adding task " ++ newTaskId ++ " would create a circular dependency with " ++ d)

/-- Per-dependency checks of TaskValidator.validateTaskInput (checks 5-7),
first failure wins.  The JS test `!depId || depId.trim() === ''` holds exactly
when the id is empty or consists of whitespace only. -/
def checkDeps (store : Store) (inputId : String) : List String → Option String
  | [] => none
  | d :: ds =>
    if d = "" ∨ d.data.all Char.isWhitespace then
      some "Dependency IDs must be non-empty strings"
    else if d = inputId then some "Task cannot depend on itself"
    else if (getTask store d).isNone then
      some ("Dependency '" ++ d ++ "' does not exist. Please submit dependencies before dependent tasks.")
    else checkDeps store inputId ds

/-- TaskValidator.validateTaskInput: the eight checks in source order; `none`
means the input is accepted. -/
def validateTaskInput (store : Store) (input : TaskInput) : Option String :=
  if input.id = "" then some "Task ID is required and must be a string"
  else if input.type = "" then some "Task type is required and must be a string"
  else if input.duration_ms < 0 then some "duration_ms must be a non-negative number"
  else if (getTask store input.id).isSome then
    some ("Task with ID " ++ input.id ++ " already exists")
  else
    let deps := input.dependencies.getD []
    match checkDeps store input.id deps with
    | some e => some e
    | none => detectCycle store input.id deps

/-- TaskValidator.createTask: materialize the initial row; QUEUED when the
dependency list is empty or every dependency is COMPLETED in the snapshot,
WAITING otherwise.  `now` stands for `Date.now()`. -/
def createTask (store : Store) (input : TaskInput) (now : Nat) : TaskRow :=
  let allTasks := getAllTasks store
  let completedTaskIds :=
    (allTasks.filter (fun t => t.status == TaskStatus.COMPLETED)).map TaskRow.id
  let deps := input.dependencies.getD []
  let status :=
    if deps.isEmpty then TaskStatus.QUEUED
    else if deps.all (fun d => completedTaskIds.contains d) then TaskStatus.QUEUED
    else TaskStatus.WAITING
  { id := input.id
    type := input.type
    duration_ms := input.duration_ms
    dependencies := deps
    status := status
    created_at := now
    started_at := none
    completed_at := none
    error := none
    retry_count := 0
    version := 0 }

/-! Scheduler, runner hand-off and recovery (src/engine/executor.ts), as a
transition system over the store plus the executor's in-flight set. -/

/-- State of the system: the durable store, the executor's `runningTasks` set
and its `maxConcurrentTasks` configuration. -/
structure SysState where
  store : Store
  runningTasks : Finset String
  maxConcurrent : Nat

/-- The claim part of TaskExecutor.executeTask: re-read the version, issue the
version-gated write to RUNNING with `started_at = now`, and add the id to the
in-flight set only when the write was applied. -/
def claimOne (now : Nat) (acc : Store × Finset String) (t : TaskRow) :
    Store × Finset String :=
  match getTaskWithVersion acc.1 t.id with
  | none => acc
  | some (_, v) =>
    let r := updateTaskStatus acc.1 t.id TaskStatus.RUNNING v { started_at := some now }
    if r.1 then (r.2, insert t.id acc.2) else (r.2, acc.2)

/-- The list of tasks a tick attempts to claim: the ready tasks sorted by
`created_at` ascending, truncated to the free-slot count (zero slots means the
tick returns without claiming). -/
def tickToExec (s : SysState) : List TaskRow :=
  let availableSlots := s.maxConcurrent - s.runningTasks.card
  if availableSlots = 0 then []
  else (byCreated (getReadyTasks s.store)).take availableSlots

/-- TaskExecutor.scheduleNextTasks: one scheduling tick, claiming each entry of
`tickToExec` in order. -/
def tickResult (s : SysState) (now : Nat) : SysState :=
  let p := (tickToExec s).foldl (claimOne now) (s.store, s.runningTasks)
  { s with store := p.1, runningTasks := p.2 }

/-- Terminal phase of TaskExecutor.executeTask: re-fetch the version, write the
terminal status (with `completed_at`, and `error` on failure), and remove the
id from the in-flight set. -/
def terminalResult (s : SysState) (taskId : String) (st : TaskStatus) (now : Nat)
    (err : Option String) : SysState :=
  match getTaskWithVersion s.store taskId with
  | none => { s with runningTasks := s.runningTasks.erase taskId }
  | some (_, v) =>
    let upd : StatusUpdates := { completed_at := some now, error := err }
    { s with
      store := (updateTaskStatus s.store taskId st v upd).2
      runningTasks := s.runningTasks.erase taskId }

/-- Partial update passed by TaskExecutor.recoverOrphanedTasks.  The JS call
also passes `started_at: undefined`, which fails the `!== undefined` guard in
`updateTaskStatus`, so no `started_at` column is written. -/
def recoverUpd : StatusUpdates :=
  { error := some "Task was interrupted by system restart" }

/-- Recovery write for one orphaned task: read the current version and issue
the version-gated write to QUEUED; a stale result is ignored. -/
def recoverOne (st : Store) (t : TaskRow) : Store :=
  match getTaskWithVersion st t.id with
  | none => st
  | some (_, v) => (updateTaskStatus st t.id TaskStatus.QUEUED v recoverUpd).2

/-- TaskExecutor.recoverOrphanedTasks: reset every RUNNING row. -/
def recoverStore (store : Store) : Store :=
  (getOrphanedTasks store).foldl recoverOne store

/-- Submission path of the POST /tasks route: validate, materialize, insert.
Rejected input leaves the store unchanged, as does an insert-time collision. -/
def submitResult (s : SysState) (input : TaskInput) (now : Nat) : SysState :=
  match validateTaskInput s.store input with
  | some _ => s
  | none => { s with store := (insertTask s.store (createTask s.store input now)).2 }

/-- Step relation of the system: scheduler ticks, runner terminal writes (the
id must be in flight), startup recovery (the executor has no in-flight runners
when `start()` runs it), crash/restart (the in-flight set dies with the
process, the store survives), and submissions. -/
inductive Step : SysState → SysState → Prop where
  | tick (s : SysState) (now : Nat) : Step s (tickResult s now)
  | terminalSuccess (s : SysState) (taskId : String) (now : Nat) :
      taskId ∈ s.runningTasks → Step s (terminalResult s taskId TaskStatus.COMPLETED now none)
  | terminalFailure (s : SysState) (taskId : String) (now : Nat) (msg : String) :
      taskId ∈ s.runningTasks →
      Step s (terminalResult s taskId TaskStatus.FAILED now (some msg))
  | recover (s : SysState) : s.runningTasks = ∅ → Step s { s with store := recoverStore s.store }
  | crash (s : SysState) : Step s { s with runningTasks := ∅ }
  | submit (s : SysState) (input : TaskInput) (now : Nat) : Step s (submitResult s input now)

/-- Reachability under the step relation. -/
def Reachable (s₀ s : SysState) : Prop := Relation.ReflTransGen Step s₀ s

/-- Clean start: no in-flight runners and a store respecting the PRIMARY KEY
constraint. -/
def InitOk (s : SysState) : Prop :=
  s.runningTasks = ∅ ∧ (s.store.map TaskRow.id).Nodup

/-- System invariant carried through all steps: unique row ids, and every
in-flight id is backed by a RUNNING row. -/
def Inv (s : SysState) : Prop :=
  (s.store.map TaskRow.id).Nodup ∧
  ∀ a ∈ s.runningTasks, ∃ t ∈ s.store, t.id = a ∧ t.status = TaskStatus.RUNNING

/-- Observable status of a task id. -/
def statusAt (store : Store) (taskId : String) : Option TaskStatus :=
  (getTask store taskId).map TaskRow.status

/-- A dependency id counts as completed when some row with that id is
COMPLETED (the `completedTaskIds.has` test of the source). -/
def depCompleted (store : Store) (d : String) : Prop :=
  ∃ u ∈ store, u.id = d ∧ u.status = TaskStatus.COMPLETED

instance (store : Store) (d : String) : Decidable (depCompleted store d) := by
  unfold depCompleted; infer_instance

/-- Invariant I8 of the spec: every WAITING task has at least one dependency
that is not COMPLETED. -/
def InvariantI8 (store : Store) : Prop :=
  ∀ t ∈ store, t.status = TaskStatus.WAITING →
    ∃ d ∈ t.dependencies, ¬ depCompleted store d

instance (store : Store) : Decidable (InvariantI8 store) := by
  unfold InvariantI8; infer_instance

/-- Demo row for the store-level theorems: a COMPLETED task at version 3. -/
def demoRow : TaskRow :=
  { id := "a", type := "T", duration_ms := 2, dependencies := [],
    status := TaskStatus.COMPLETED, created_at := 0, started_at := some 1,
    completed_at := some 2, error := none, retry_count := 0, version := 3 }

/-- Effect of one recovery pass on a single row: RUNNING rows are moved to
QUEUED with a bumped version and the interruption message; all other rows are
untouched.  Note that `started_at` is NOT cleared: the recovery call passes
`started_at: undefined`, which `updateTaskStatus` skips. -/
def recoverRow (t : TaskRow) : TaskRow :=
  if t.status = TaskStatus.RUNNING then applyUpdates t TaskStatus.QUEUED recoverUpd else t

/-- Row used by the recovery witnesses: RUNNING with a recorded start time. -/
def orphanRow : TaskRow :=
  { id := "r", type := "T", duration_ms := 1, dependencies := [],
    status := TaskStatus.RUNNING, created_at := 0, started_at := some 5,
    completed_at := none, error := none, retry_count := 0, version := 0 }

/-- C8, counterexample set-up: a RUNNING dependency claimed by a runner, and a
WAITING dependent whose only dependency it is. -/
def i8PreState : SysState :=
  { store :=
      [{ id := "d", type := "T", duration_ms := 1, dependencies := [],
         status := TaskStatus.RUNNING, created_at := 0, started_at := some 1,
         completed_at := none, error := none, retry_count := 0, version := 1 },
       { id := "w", type := "T", duration_ms := 1, dependencies := ["d"],
         status := TaskStatus.WAITING, created_at := 1, started_at := none,
         completed_at := none, error := none, retry_count := 0, version := 0 }]
    runningTasks := {"d"}
    maxConcurrent := 3 }

/-- Clean one-row COMPLETED state used by the C2/C3 witnesses. -/
def c3Init : SysState :=
  { store := [demoRow], runningTasks := ∅, maxConcurrent := 2 }

/-- Two ready tasks with the same created_at, inserted in the order b then a. -/
def c7State : SysState :=
  { store :=
      [{ id := "b", type := "T", duration_ms := 1, dependencies := [],
         status := TaskStatus.QUEUED, created_at := 7, started_at := none,
         completed_at := none, error := none, retry_count := 0, version := 0 },
       { id := "a", type := "T", duration_ms := 1, dependencies := [],
         status := TaskStatus.QUEUED, created_at := 7, started_at := none,
         completed_at := none, error := none, retry_count := 0, version := 0 }]
    runningTasks := ∅
    maxConcurrent := 3 }

/-- Edge relation of a dependency graph: a task points at each of its
dependencies. -/
def depEdge (g : List (String × List String)) (x y : String) : Prop :=
  ∃ l, g.lookup x = some l ∧ y ∈ l

/-- A graph with no directed cycle. -/
def Acyclic (g : List (String × List String)) : Prop :=
  ¬ ∃ x, Relation.TransGen (depEdge g) x x

/-- Checks 1-7 of validateTaskInput (everything before the cycle check). -/
def checksOneToSeven (store : Store) (input : TaskInput) : Prop :=
  input.id ≠ "" ∧ input.type ≠ "" ∧ 0 ≤ input.duration_ms ∧
  getTask store input.id = none ∧
  ∀ d ∈ input.dependencies.getD [],
    ¬(d = "" ∨ d.data.all Char.isWhitespace) ∧ d ≠ input.id ∧
    (getTask store d).isSome = true

instance (store : Store) (input : TaskInput) : Decidable (checksOneToSeven store input) := by
  unfold checksOneToSeven; infer_instance

/-- Number of universe nodes not yet visited; the DFS termination measure. -/
def missingCount (U V : List String) : Nat :=
  (U.filter (fun x => !V.contains x)).length

/-- Every node newly visited by a failed search is not the target and all its
successors were visited too. -/
def NewClosed (g : List (String × List String)) (target : String)
    (V Vf : List String) : Prop :=
  ∀ x ∈ Vf, x ∉ V → (x ≠ target ∧ ∀ y, depEdge g x y → y ∈ Vf)

/-- Store and input for the C6 witness: a depends on nothing; the candidate b
depends on a; no cycle, so validation accepts. -/
def c6Store : Store :=
  [{ id := "p", type := "T", duration_ms := 1, dependencies := [],
     status := TaskStatus.QUEUED, created_at := 0, started_at := none,
     completed_at := none, error := none, retry_count := 0, version := 0 }]

def c6Input : TaskInput :=
  { id := "q", type := "T", duration_ms := 1, dependencies := some ["p"] }

/-! Basic lemmas about the store primitives. -/

theorem applyUpdates_id (t : TaskRow) (st : TaskStatus) (u : StatusUpdates) :
    (applyUpdates t st u).id = t.id := rfl

theorem getTask_map_of_id (store : Store) (g : TaskRow → TaskRow)
    (hg : ∀ t, (g t).id = t.id) (x : String) :
    getTask (store.map g) x = (getTask store x).map g := by
  unfold getTask
  rw [List.find?_map]
  have : (fun t => (g t).id == x) = (fun t : TaskRow => t.id == x) := by
    funext t; rw [hg]
  simp only [Function.comp_def, hg]

theorem ids_map_of_id (store : Store) (g : TaskRow → TaskRow)
    (hg : ∀ t, (g t).id = t.id) :
    (store.map g).map TaskRow.id = store.map TaskRow.id := by
  rw [List.map_map]
  exact List.map_congr_left (fun t _ => hg t)

theorem getTask_eq_of_mem {store : Store} {t : TaskRow}
    (hnd : (store.map TaskRow.id).Nodup) (ht : t ∈ store) :
    getTask store t.id = some t := by
  induction store with
  | nil => cases ht
  | cons a l ih =>
    rcases List.mem_cons.mp ht with h | h
    · subst h
      unfold getTask
      rw [List.find?_cons_of_pos _ (by simp)]
    · have hne : a.id ≠ t.id := by
        intro he
        have : t.id ∈ l.map TaskRow.id := List.mem_map_of_mem TaskRow.id h
        rw [← he] at this
        exact (List.nodup_cons.mp hnd).1 this
      unfold getTask
      rw [List.find?_cons_of_neg _ (by simp [hne])]
      exact ih (List.nodup_cons.mp hnd).2 h

theorem eq_of_mem_of_id_eq {store : Store} {q t : TaskRow}
    (hnd : (store.map TaskRow.id).Nodup) (hq : q ∈ store) (ht : t ∈ store)
    (hids : q.id = t.id) : q = t := by
  have h1 := getTask_eq_of_mem hnd ht
  have h2 := getTask_eq_of_mem hnd hq
  rw [hids, h1] at h2
  exact Option.some.inj h2.symm

theorem getTask_some {store : Store} {x : String} {t : TaskRow}
    (h : getTask store x = some t) : t ∈ store ∧ t.id = x := by
  refine ⟨List.mem_of_find?_eq_some h, ?_⟩
  have := List.find?_some h
  exact beq_iff_eq.mp this

theorem getTask_none {store : Store} {x : String} :
    getTask store x = none ↔ ∀ t ∈ store, t.id ≠ x := by
  unfold getTask
  rw [List.find?_eq_none]
  constructor
  · intro h t ht he
    exact h t ht (by simpa [beq_iff_eq] using he)
  · intro h t ht hb
    exact h t ht (beq_iff_eq.mp hb)

theorem updateTaskStatus_ids (store : Store) (taskId : String) (st : TaskStatus)
    (v : Nat) (u : StatusUpdates) :
    ((updateTaskStatus store taskId st v u).2).map TaskRow.id = store.map TaskRow.id := by
  apply ids_map_of_id
  intro t
  by_cases h : (t.id == taskId && t.version == v) = true <;> simp [h, applyUpdates_id]

theorem updateTaskStatus_getTask (store : Store) (taskId : String) (st : TaskStatus)
    (v : Nat) (u : StatusUpdates) (x : String) :
    getTask (updateTaskStatus store taskId st v u).2 x =
      (getTask store x).map
        (fun t => if t.id == taskId && t.version == v then applyUpdates t st u else t) := by
  apply getTask_map_of_id
  intro t
  by_cases h : (t.id == taskId && t.version == v) = true <;> simp [h, applyUpdates_id]

theorem updateTaskStatus_getTask_other (store : Store) (taskId : String)
    (st : TaskStatus) (v : Nat) (u : StatusUpdates) {x : String} (hx : x ≠ taskId) :
    getTask (updateTaskStatus store taskId st v u).2 x = getTask store x := by
  rw [updateTaskStatus_getTask]
  cases h : getTask store x with
  | none => rfl
  | some t =>
    have hid : t.id = x := (getTask_some h).2
    have hb : (t.id == taskId) = false := by
      rw [hid]; exact beq_false_of_ne hx
    show some (if (t.id == taskId && t.version == v) = true then applyUpdates t st u else t)
      = some t
    rw [hb, Bool.false_and]
    simp

theorem updateTaskStatus_fst (store : Store) (taskId : String) (st : TaskStatus)
    (v : Nat) (u : StatusUpdates) :
    (updateTaskStatus store taskId st v u).1 = true ↔
      ∃ t ∈ store, t.id = taskId ∧ t.version = v := by
  unfold updateTaskStatus
  simp [List.any_eq_true]

theorem updateTaskStatus_no_match {store : Store} {taskId : String} {st : TaskStatus}
    {v : Nat} {u : StatusUpdates}
    (h : ∀ t ∈ store, ¬(t.id = taskId ∧ t.version = v)) :
    updateTaskStatus store taskId st v u = (false, store) := by
  unfold updateTaskStatus
  simp only [Prod.mk.injEq]
  constructor
  · rw [List.any_eq_false]
    intro t ht hb
    have hb2 := Bool.and_eq_true _ _ |>.mp hb
    exact h t ht ⟨beq_iff_eq.mp hb2.1, beq_iff_eq.mp hb2.2⟩
  · conv_rhs => rw [← List.map_id store]
    apply List.map_congr_left
    intro t ht
    have hf : (t.id == taskId && t.version == v) = false := by
      by_contra hc
      have := Bool.and_eq_true _ _ |>.mp (Bool.of_not_eq_false hc)
      exact h t ht ⟨beq_iff_eq.mp this.1, beq_iff_eq.mp this.2⟩
    simp [hf]

theorem updateTaskStatus_applied {store : Store} {t : TaskRow} {taskId : String}
    (st : TaskStatus) (u : StatusUpdates)
    (hnd : (store.map TaskRow.id).Nodup) (ht : t ∈ store) (hid : t.id = taskId) :
    updateTaskStatus store taskId st t.version u =
      (true, store.map (fun q => if q.id == taskId then applyUpdates q st u else q)) := by
  unfold updateTaskStatus
  simp only [Prod.mk.injEq]
  constructor
  · rw [List.any_eq_true]
    exact ⟨t, ht, by simp [hid]⟩
  · apply List.map_congr_left
    intro q hq
    by_cases hqid : q.id = taskId
    · have hq_eq : q = t := eq_of_mem_of_id_eq hnd hq ht (by rw [hqid, hid])
      subst hq_eq
      simp [hqid]
    · have h1 : (q.id == taskId) = false := beq_false_of_ne hqid
      simp [h1]

theorem getTask_append_left {store : Store} {x : String} {l : Store}
    (h : (getTask store x).isSome) :
    getTask (store ++ l) x = getTask store x := by
  unfold getTask at *
  rw [List.find?_append]
  cases hf : List.find? (fun t => t.id == x) store with
  | none => rw [hf] at h; cases h
  | some t => rfl

theorem insertTask_ids_nodup {store : Store} {t : TaskRow}
    (hnd : (store.map TaskRow.id).Nodup) :
    (((insertTask store t).2).map TaskRow.id).Nodup := by
  unfold insertTask
  by_cases h : store.any (fun u => u.id == t.id) = true
  · simp [h, hnd]
  · simp only [h, if_neg, Bool.false_eq_true, not_false_iff, if_false]
    rw [List.map_append]
    simp only [List.map_cons, List.map_nil]
    rw [List.nodup_append]
    refine ⟨hnd, List.nodup_singleton _, ?_⟩
    intro a ha hb
    simp only [List.mem_singleton] at hb
    rcases List.mem_map.mp ha with ⟨q, hq, hqa⟩
    have : q.id = t.id := by rw [hqa, hb]
    exact h (List.any_eq_true.mpr ⟨q, hq, by simpa [beq_iff_eq] using this⟩)

/-! Lemmas about the sorted views. -/

theorem insertByCreated_perm (t : TaskRow) (l : List TaskRow) :
    (insertByCreated t l).Perm (t :: l) := by
  induction l with
  | nil => exact List.Perm.refl _
  | cons a l ih =>
    unfold insertByCreated
    by_cases h : t.created_at < a.created_at
    · rw [if_pos h]
    · rw [if_neg h]
      exact List.Perm.trans (List.Perm.cons a ih) (List.Perm.swap t a l)

theorem byCreated_foldl_perm (l acc : List TaskRow) :
    (l.foldl (fun acc t => insertByCreated t acc) acc).Perm (acc ++ l) := by
  induction l generalizing acc with
  | nil => simp
  | cons t l ih =>
    rw [List.foldl_cons]
    refine List.Perm.trans (ih (insertByCreated t acc)) ?_
    refine List.Perm.trans ((insertByCreated_perm t acc).append_right l) ?_
    exact List.perm_middle.symm

theorem byCreated_perm (l : List TaskRow) : (byCreated l).Perm l := by
  have := byCreated_foldl_perm l []
  simpa [byCreated] using this

theorem mem_byCreated {l : List TaskRow} {t : TaskRow} : t ∈ byCreated l ↔ t ∈ l :=
  (byCreated_perm l).mem_iff

theorem insertByCreated_sorted {l : List TaskRow} (t : TaskRow)
    (h : List.Pairwise (fun a b : TaskRow => a.created_at ≤ b.created_at) l) :
    List.Pairwise (fun a b : TaskRow => a.created_at ≤ b.created_at)
      (insertByCreated t l) := by
  induction l with
  | nil => simp [insertByCreated]
  | cons a l ih =>
    rcases List.pairwise_cons.mp h with ⟨ha, hl⟩
    unfold insertByCreated
    by_cases hc : t.created_at < a.created_at
    · rw [if_pos hc]
      refine List.pairwise_cons.mpr ⟨?_, h⟩
      intro b hb
      rcases List.mem_cons.mp hb with hb | hb
      · rw [hb]; omega
      · have := ha b hb; omega
    · rw [if_neg hc]
      refine List.pairwise_cons.mpr ⟨?_, ih hl⟩
      intro b hb
      have hb2 := (insertByCreated_perm t l).mem_iff.mp hb
      rcases List.mem_cons.mp hb2 with hb2 | hb2
      · rw [hb2]; omega
      · exact ha b hb2

theorem byCreated_sorted (l : List TaskRow) :
    List.Pairwise (fun a b : TaskRow => a.created_at ≤ b.created_at) (byCreated l) := by
  unfold byCreated
  have : ∀ acc : List TaskRow,
      List.Pairwise (fun a b : TaskRow => a.created_at ≤ b.created_at) acc →
      List.Pairwise (fun a b : TaskRow => a.created_at ≤ b.created_at)
        (l.foldl (fun acc t => insertByCreated t acc) acc) := by
    induction l with
    | nil => intro acc hacc; exact hacc
    | cons t l ih =>
      intro acc hacc
      rw [List.foldl_cons]
      exact ih _ (insertByCreated_sorted t hacc)
  exact this [] (List.Pairwise.nil)

theorem byCreated_ids_nodup {l : List TaskRow}
    (h : (l.map TaskRow.id).Nodup) : ((byCreated l).map TaskRow.id).Nodup :=
  ((byCreated_perm l).map TaskRow.id).nodup_iff.mpr h

theorem mem_getAllTasks {store : Store} {t : TaskRow} :
    t ∈ getAllTasks store ↔ t ∈ store := mem_byCreated

theorem mem_getReadyTasks {store : Store} {t : TaskRow}
    (h : t ∈ getReadyTasks store) :
    t ∈ store ∧ (t.status = TaskStatus.QUEUED ∨ t.status = TaskStatus.WAITING) := by
  unfold getReadyTasks at h
  have hm := List.mem_filter.mp h
  refine ⟨mem_getAllTasks.mp hm.1, ?_⟩
  have := hm.2
  simp only [Bool.and_eq_true, Bool.or_eq_true, beq_iff_eq] at this
  exact this.1

theorem getReadyTasks_ids_nodup {store : Store}
    (h : (store.map TaskRow.id).Nodup) :
    ((getReadyTasks store).map TaskRow.id).Nodup := by
  unfold getReadyTasks
  have h1 : ((getAllTasks store).map TaskRow.id).Nodup := byCreated_ids_nodup h
  exact List.Nodup.sublist (List.Sublist.map TaskRow.id (List.filter_sublist _)) h1

theorem applyUpdates_started_at (t : TaskRow) (st : TaskStatus) (u : StatusUpdates) :
    (applyUpdates t st u).started_at = u.started_at.or t.started_at := by
  obtain ⟨sa, ca, er, rc⟩ := u
  cases sa <;> cases ca <;> cases er <;> cases rc <;> rfl

theorem applyUpdates_completed_at (t : TaskRow) (st : TaskStatus) (u : StatusUpdates) :
    (applyUpdates t st u).completed_at = u.completed_at.or t.completed_at := by
  obtain ⟨sa, ca, er, rc⟩ := u
  cases sa <;> cases ca <;> cases er <;> cases rc <;> rfl

theorem applyUpdates_error (t : TaskRow) (st : TaskStatus) (u : StatusUpdates) :
    (applyUpdates t st u).error = u.error.or t.error := by
  obtain ⟨sa, ca, er, rc⟩ := u
  cases sa <;> cases ca <;> cases er <;> cases rc <;> rfl

theorem applyUpdates_retry_count (t : TaskRow) (st : TaskStatus) (u : StatusUpdates) :
    (applyUpdates t st u).retry_count = u.retry_count.getD t.retry_count := by
  obtain ⟨sa, ca, er, rc⟩ := u
  cases sa <;> cases ca <;> cases er <;> cases rc <;> rfl

/-- The row stored for an id after an applied update, as seen by `getTask`. -/
theorem getTask_after_applied {store : Store} {t : TaskRow} {taskId : String}
    (st : TaskStatus) (u : StatusUpdates)
    (hnd : (store.map TaskRow.id).Nodup) (ht : t ∈ store) (hid : t.id = taskId) :
    getTask (updateTaskStatus store taskId st t.version u).2 taskId
      = some (applyUpdates t st u) := by
  rw [updateTaskStatus_applied st u hnd ht hid]
  have hg : ∀ q : TaskRow,
      ((fun q : TaskRow => if q.id == taskId then applyUpdates q st u else q) q).id = q.id := by
    intro q
    by_cases hq : (q.id == taskId) = true <;> simp [hq, applyUpdates_id]
  rw [getTask_map_of_id store _ hg taskId, ← hid, getTask_eq_of_mem hnd ht]
  simp [hid]

/-- C1: the version gate of `updateTaskStatus`.

The write applies iff the stored version of the id equals the expected
version; on success the version increments by exactly 1, the status and
exactly the supplied partial fields are written (absent fields keep their
stored values), all other columns and all other rows are untouched, and the
call reports success (claimed); on a version mismatch it reports failure
(stale) and the store is completely unchanged. -/
theorem updateTaskStatus_version_gate (store : Store) (taskId : String)
    (newStatus : TaskStatus) (expectedVersion : Nat) (u : StatusUpdates) (t : TaskRow)
    (hnd : (store.map TaskRow.id).Nodup) (ht : t ∈ store) (hid : t.id = taskId) :
    ((updateTaskStatus store taskId newStatus expectedVersion u).1 = true
        ↔ t.version = expectedVersion) ∧
    (t.version = expectedVersion →
      ∃ t', getTask (updateTaskStatus store taskId newStatus expectedVersion u).2 taskId
            = some t' ∧
        t'.version = t.version + 1 ∧
        t'.status = newStatus ∧
        t'.started_at = u.started_at.or t.started_at ∧
        t'.completed_at = u.completed_at.or t.completed_at ∧
        t'.error = u.error.or t.error ∧
        t'.retry_count = u.retry_count.getD t.retry_count ∧
        t'.id = t.id ∧ t'.type = t.type ∧ t'.duration_ms = t.duration_ms ∧
        t'.dependencies = t.dependencies ∧ t'.created_at = t.created_at) ∧
    (∀ x, x ≠ taskId →
      getTask (updateTaskStatus store taskId newStatus expectedVersion u).2 x
        = getTask store x) ∧
    (t.version ≠ expectedVersion →
      updateTaskStatus store taskId newStatus expectedVersion u = (false, store)) := by
  refine ⟨?_, ?_, ?_, ?_⟩
  · rw [updateTaskStatus_fst]
    constructor
    · rintro ⟨q, hq, hqid, hqv⟩
      have : q = t := eq_of_mem_of_id_eq hnd hq ht (by rw [hqid, hid])
      rw [← this]; exact hqv
    · intro hv; exact ⟨t, ht, hid, hv⟩
  · intro hv
    subst hv
    refine ⟨applyUpdates t newStatus u, getTask_after_applied newStatus u hnd ht hid, rfl, rfl,
      applyUpdates_started_at t newStatus u, applyUpdates_completed_at t newStatus u,
      applyUpdates_error t newStatus u, applyUpdates_retry_count t newStatus u,
      rfl, rfl, rfl, rfl, rfl⟩
  · intro x hx
    exact updateTaskStatus_getTask_other store taskId newStatus expectedVersion u hx
  · intro hv
    apply updateTaskStatus_no_match
    intro q hq ⟨hqid, hqv⟩
    have : q = t := eq_of_mem_of_id_eq hnd hq ht (by rw [hqid, hid])
    subst this
    exact hv hqv

/-- Witness for the C1 theorem at a concrete one-row store. -/
theorem updateTaskStatus_version_gate_witness :
    (((updateTaskStatus [demoRow] "a" TaskStatus.RUNNING 3 { started_at := some 9 }).1 = true
        ↔ demoRow.version = 3) ∧
    (demoRow.version = 3 →
      ∃ t', getTask (updateTaskStatus [demoRow] "a" TaskStatus.RUNNING 3
              { started_at := some 9 }).2 "a" = some t' ∧
        t'.version = demoRow.version + 1 ∧
        t'.status = TaskStatus.RUNNING ∧
        t'.started_at = (some 9 : Option Nat).or demoRow.started_at ∧
        t'.completed_at = (none : Option Nat).or demoRow.completed_at ∧
        t'.error = (none : Option String).or demoRow.error ∧
        t'.retry_count = (none : Option Nat).getD demoRow.retry_count ∧
        t'.id = demoRow.id ∧ t'.type = demoRow.type ∧
        t'.duration_ms = demoRow.duration_ms ∧
        t'.dependencies = demoRow.dependencies ∧ t'.created_at = demoRow.created_at) ∧
    (∀ x, x ≠ "a" →
      getTask (updateTaskStatus [demoRow] "a" TaskStatus.RUNNING 3
          { started_at := some 9 }).2 x = getTask [demoRow] x) ∧
    (demoRow.version ≠ 3 →
      updateTaskStatus [demoRow] "a" TaskStatus.RUNNING 3 { started_at := some 9 }
        = (false, [demoRow]))) :=
  updateTaskStatus_version_gate [demoRow] "a" TaskStatus.RUNNING 3
    { started_at := some 9 } demoRow (by decide) (by decide) (by decide)

/-- C10: the mutation primitive never inspects the current status.

Whenever the id exists and the expected version matches the stored one, the
write is applied and the stored status becomes the target status — the row's
current status is universally quantified, so any transition, including out of
COMPLETED or FAILED, succeeds at the store level.  Terminality is only caller
discipline. -/
theorem updateTaskStatus_ignores_status (store : Store) (newStatus : TaskStatus)
    (u : StatusUpdates) (t : TaskRow)
    (hnd : (store.map TaskRow.id).Nodup) (ht : t ∈ store) :
    (updateTaskStatus store t.id newStatus t.version u).1 = true ∧
    statusAt (updateTaskStatus store t.id newStatus t.version u).2 t.id
      = some newStatus := by
  constructor
  · exact (updateTaskStatus_fst store t.id newStatus t.version u).mpr ⟨t, ht, rfl, rfl⟩
  · unfold statusAt
    rw [getTask_after_applied newStatus u hnd ht rfl]
    rfl

/-- Witness for the C10 theorem: a COMPLETED row is moved back to QUEUED by a
version-matching update. -/
theorem updateTaskStatus_ignores_status_witness :
    (updateTaskStatus [demoRow] demoRow.id TaskStatus.QUEUED demoRow.version {}).1 = true ∧
    statusAt (updateTaskStatus [demoRow] demoRow.id TaskStatus.QUEUED
        demoRow.version {}).2 demoRow.id = some TaskStatus.QUEUED :=
  updateTaskStatus_ignores_status [demoRow] TaskStatus.QUEUED {} demoRow
    (by decide) (by decide)

/-! C5: initial status and field carry-over of createTask. -/

theorem contains_completedIds {store : Store} {d : String} :
    (((getAllTasks store).filter
        (fun t => t.status == TaskStatus.COMPLETED)).map TaskRow.id).contains d = true
      ↔ depCompleted store d := by
  rw [List.contains_iff_exists_mem_beq]
  unfold depCompleted
  constructor
  · rintro ⟨x, hx, hbeq⟩
    rcases List.mem_map.mp hx with ⟨u, hu, hux⟩
    have hu2 := List.mem_filter.mp hu
    refine ⟨u, mem_getAllTasks.mp hu2.1, ?_, beq_iff_eq.mp hu2.2⟩
    rw [hux]; exact (beq_iff_eq.mp hbeq).symm
  · rintro ⟨u, hu, huid, hust⟩
    refine ⟨d, ?_, beq_iff_eq.mpr rfl⟩
    apply List.mem_map.mpr
    refine ⟨u, List.mem_filter.mpr ⟨mem_getAllTasks.mpr hu, beq_iff_eq.mpr hust⟩, huid⟩

/-- Helper form of the createTask specification, shared by several proofs. -/
theorem createTask_spec (store : Store) (input : TaskInput) (now : Nat) :
    ((createTask store input now).id = input.id ∧
     (createTask store input now).type = input.type ∧
     (createTask store input now).duration_ms = input.duration_ms ∧
     (createTask store input now).dependencies = input.dependencies.getD [] ∧
     (createTask store input now).created_at = now) ∧
    ((createTask store input now).status = TaskStatus.QUEUED ↔
      (input.dependencies.getD [] = [] ∨
       ∀ d ∈ input.dependencies.getD [], depCompleted store d)) ∧
    ((createTask store input now).status = TaskStatus.WAITING ↔
      ¬(input.dependencies.getD [] = [] ∨
        ∀ d ∈ input.dependencies.getD [], depCompleted store d)) := by
  have hstat : (createTask store input now).status =
      (if (input.dependencies.getD []).isEmpty then TaskStatus.QUEUED
       else if (input.dependencies.getD []).all (fun d =>
           (((getAllTasks store).filter (fun t => t.status == TaskStatus.COMPLETED)).map
             TaskRow.id).contains d) then TaskStatus.QUEUED
       else TaskStatus.WAITING) := rfl
  have hcond : ((input.dependencies.getD []).isEmpty = true
        ∨ (input.dependencies.getD []).all (fun d =>
           (((getAllTasks store).filter (fun t => t.status == TaskStatus.COMPLETED)).map
             TaskRow.id).contains d) = true) ↔
      (input.dependencies.getD [] = [] ∨
       ∀ d ∈ input.dependencies.getD [], depCompleted store d) := by
    rw [List.isEmpty_iff, List.all_eq_true]
    constructor
    · rintro (h | h)
      · exact Or.inl h
      · exact Or.inr (fun d hd => contains_completedIds.mp (h d hd))
    · rintro (h | h)
      · exact Or.inl h
      · exact Or.inr (fun d hd => contains_completedIds.mpr (h d hd))
  refine ⟨⟨rfl, rfl, rfl, rfl, rfl⟩, ?_, ?_⟩
  · rw [hstat, ← hcond]
    by_cases h1 : (input.dependencies.getD []).isEmpty = true
    · rw [if_pos h1]
      exact iff_of_true rfl (Or.inl h1)
    · rw [if_neg h1]
      by_cases h2 : (input.dependencies.getD []).all (fun d =>
          (((getAllTasks store).filter (fun t => t.status == TaskStatus.COMPLETED)).map
            TaskRow.id).contains d) = true
      · rw [if_pos h2]
        exact iff_of_true rfl (Or.inr h2)
      · rw [if_neg h2]
        exact iff_of_false (by decide) (by rintro (hc | hc) <;> [exact h1 hc; exact h2 hc])
  · rw [hstat, ← hcond]
    by_cases h1 : (input.dependencies.getD []).isEmpty = true
    · rw [if_pos h1]
      exact iff_of_false (by decide) (fun hn => hn (Or.inl h1))
    · rw [if_neg h1]
      by_cases h2 : (input.dependencies.getD []).all (fun d =>
          (((getAllTasks store).filter (fun t => t.status == TaskStatus.COMPLETED)).map
            TaskRow.id).contains d) = true
      · rw [if_pos h2]
        exact iff_of_false (by decide) (fun hn => hn (Or.inr h2))
      · rw [if_neg h2]
        exact iff_of_true rfl (by rintro (hc | hc) <;> [exact h1 hc; exact h2 hc])

/-! Recovery: characterization, idempotence (C9) and the started_at slip (C4). -/

theorem mem_getTasksByStatus {store : Store} {st : TaskStatus} {t : TaskRow} :
    t ∈ getTasksByStatus store st ↔ t ∈ store ∧ t.status = st := by
  unfold getTasksByStatus
  rw [mem_byCreated, List.mem_filter]
  simp [beq_iff_eq]

theorem getTasksByStatus_ids_nodup {store : Store} {st : TaskStatus}
    (h : (store.map TaskRow.id).Nodup) :
    ((getTasksByStatus store st).map TaskRow.id).Nodup := by
  unfold getTasksByStatus
  apply byCreated_ids_nodup
  exact List.Nodup.sublist (List.Sublist.map TaskRow.id (List.filter_sublist _)) h

theorem recover_foldl {L : List TaskRow} {store : Store}
    (hnd : (store.map TaskRow.id).Nodup)
    (hmem : ∀ o ∈ L, o ∈ store ∧ o.status = TaskStatus.RUNNING)
    (hLnd : (L.map TaskRow.id).Nodup) :
    L.foldl recoverOne store =
      store.map (fun t =>
        if t.id ∈ L.map TaskRow.id then applyUpdates t TaskStatus.QUEUED recoverUpd
        else t) := by
  induction L generalizing store with
  | nil =>
    simp only [List.foldl_nil, List.map_nil, List.not_mem_nil, if_neg, if_false]
    conv_lhs => rw [← List.map_id store]
    apply List.map_congr_left
    intro t _
    simp
  | cons o L ih =>
    have ho := hmem o (List.mem_cons_self o L)
    have hstep : recoverOne store o =
        store.map (fun q => if q.id == o.id then applyUpdates q TaskStatus.QUEUED recoverUpd
          else q) := by
      unfold recoverOne
      rw [show getTaskWithVersion store o.id = some (o, o.version) by
        unfold getTaskWithVersion; rw [getTask_eq_of_mem hnd ho.1]; rfl]
      show (updateTaskStatus store o.id TaskStatus.QUEUED o.version recoverUpd).2 = _
      rw [updateTaskStatus_applied TaskStatus.QUEUED recoverUpd hnd ho.1 rfl]
    have hid : ∀ q : TaskRow,
        ((fun q : TaskRow => if q.id == o.id then applyUpdates q TaskStatus.QUEUED recoverUpd
          else q) q).id = q.id := by
      intro q
      by_cases hq : (q.id == o.id) = true <;> simp [hq, applyUpdates_id]
    have hnd1 : ((recoverOne store o).map TaskRow.id).Nodup := by
      rw [hstep, ids_map_of_id _ _ hid]; exact hnd
    have hmem1 : ∀ o' ∈ L, o' ∈ recoverOne store o ∧ o'.status = TaskStatus.RUNNING := by
      intro o' ho'
      have h1 := hmem o' (List.mem_cons_of_mem o ho')
      refine ⟨?_, h1.2⟩
      rw [hstep]
      have hne : (o'.id == o.id) = false := by
        apply beq_false_of_ne
        intro he
        have : o.id ∈ L.map TaskRow.id := he ▸ List.mem_map_of_mem TaskRow.id ho'
        exact (List.nodup_cons.mp hLnd).1 this
      refine List.mem_map.mpr ⟨o', h1.1, by simp [hne]⟩
    have hLnd1 : (L.map TaskRow.id).Nodup := (List.nodup_cons.mp hLnd).2
    rw [List.foldl_cons, ih hnd1 hmem1 hLnd1, hstep, List.map_map]
    apply List.map_congr_left
    intro t _
    simp only [Function.comp_apply, List.map_cons, List.mem_cons]
    by_cases h1 : t.id = o.id
    · have hb : (t.id == o.id) = true := beq_iff_eq.mpr h1
      have hnotin : (applyUpdates t TaskStatus.QUEUED recoverUpd).id ∉ L.map TaskRow.id := by
        rw [applyUpdates_id, h1]
        exact (List.nodup_cons.mp hLnd).1
      simp only [hb, if_pos, if_true]
      rw [if_neg hnotin, if_pos (Or.inl h1)]
    · have hb : (t.id == o.id) = false := beq_false_of_ne h1
      simp only [hb, Bool.false_eq_true, if_false]
      by_cases h2 : t.id ∈ L.map TaskRow.id
      · rw [if_pos h2, if_pos (Or.inr h2)]
      · rw [if_neg h2, if_neg (by rintro (hc | hc) <;> [exact h1 hc; exact h2 hc])]

/-- One recovery pass, characterized row by row: exactly the RUNNING rows are
rewritten to QUEUED (version bumped, interruption error recorded, all other
fields — including `started_at` — kept). -/
theorem mem_getOrphanedTasks {store : Store} {t : TaskRow} :
    t ∈ getOrphanedTasks store ↔ t ∈ store ∧ t.status = TaskStatus.RUNNING :=
  mem_getTasksByStatus

theorem getOrphanedTasks_ids_nodup {store : Store}
    (h : (store.map TaskRow.id).Nodup) :
    ((getOrphanedTasks store).map TaskRow.id).Nodup :=
  getTasksByStatus_ids_nodup h

theorem recoverStore_char {store : Store} (hnd : (store.map TaskRow.id).Nodup) :
    recoverStore store = store.map recoverRow := by
  unfold recoverStore
  rw [recover_foldl hnd
    (fun o ho => mem_getOrphanedTasks.mp ho)
    (getOrphanedTasks_ids_nodup hnd)]
  apply List.map_congr_left
  intro t ht
  unfold recoverRow
  by_cases h1 : t.id ∈ (getOrphanedTasks store).map TaskRow.id
  · rcases List.mem_map.mp h1 with ⟨o, ho, hoid⟩
    have ho2 := mem_getTasksByStatus.mp ho
    have : o = t := eq_of_mem_of_id_eq hnd ho2.1 ht hoid
    rw [if_pos h1, if_pos (this ▸ ho2.2)]
  · rw [if_neg h1]
    by_cases h2 : t.status = TaskStatus.RUNNING
    · exact absurd (List.mem_map_of_mem TaskRow.id
        (mem_getTasksByStatus.mpr ⟨ht, h2⟩)) h1
    · rw [if_neg h2]

theorem recoverStore_no_running {store : Store} (hnd : (store.map TaskRow.id).Nodup) :
    ∀ t ∈ recoverStore store, t.status ≠ TaskStatus.RUNNING := by
  rw [recoverStore_char hnd]
  intro t ht
  rcases List.mem_map.mp ht with ⟨q, _, hqt⟩
  unfold recoverRow at hqt
  by_cases h : q.status = TaskStatus.RUNNING
  · rw [if_pos h] at hqt
    rw [← hqt]
    intro hc
    exact absurd hc (by simp [applyUpdates])
  · rw [if_neg h] at hqt
    rw [← hqt]
    exact h

/-- C9: recovery is idempotent.  On a store respecting the PRIMARY KEY
constraint, a second recovery pass finds no RUNNING row and changes nothing,
so two passes equal one. -/
theorem recoverStore_idempotent (store : Store) (hnd : (store.map TaskRow.id).Nodup) :
    recoverStore (recoverStore store) = recoverStore store := by
  have hempty : getOrphanedTasks (recoverStore store) = [] := by
    unfold getOrphanedTasks getTasksByStatus
    have hf : (recoverStore store).filter (fun t => t.status == TaskStatus.RUNNING) = [] := by
      rw [List.filter_eq_nil_iff]
      intro t ht
      simpa [beq_iff_eq] using recoverStore_no_running hnd t ht
    rw [hf]
    exact (byCreated_perm []).eq_nil
  have hstep : recoverStore (recoverStore store)
      = (getOrphanedTasks (recoverStore store)).foldl recoverOne (recoverStore store) := rfl
  rw [hstep, hempty, List.foldl_nil]

/-- Witness for the C9 theorem at a concrete one-row store. -/
theorem recoverStore_idempotent_witness :
    recoverStore (recoverStore [orphanRow]) = recoverStore [orphanRow] :=
  recoverStore_idempotent [orphanRow] (by decide)

/-- C4, divergence on the code: after recovery the interrupted task is QUEUED
and carries the interruption error, but its `started_at` is NOT cleared — it
keeps its old value (`some 5` here, where the spec requires null).  The
recovery call passes `started_at: undefined`, which fails the
`!== undefined` guard of `updateTaskStatus`, so the column is never written. -/
theorem recovery_leaves_started_at_set :
    statusAt (recoverStore [orphanRow]) "r" = some TaskStatus.QUEUED ∧
    (getTask (recoverStore [orphanRow]) "r").map TaskRow.error
      = some (some "Task was interrupted by system restart") ∧
    (getTask (recoverStore [orphanRow]) "r").map TaskRow.started_at = some (some 5) ∧
    (getTask (recoverStore [orphanRow]) "r").map TaskRow.started_at ≠ some none := by
  refine ⟨?_, ?_, ?_, ?_⟩ <;> decide

/-- C5: for every input, the materialized task's initial status is QUEUED iff
its dependency list (defaulting to empty) is empty or every listed dependency
is COMPLETED in the store snapshot, and WAITING otherwise; the record carries
the input's id, type, duration_ms and dependencies unchanged.  (This holds for
all inputs, in particular for every validated one.) -/
theorem createTask_initial_status (store : Store) (input : TaskInput) (now : Nat) :
    ((createTask store input now).id = input.id ∧
     (createTask store input now).type = input.type ∧
     (createTask store input now).duration_ms = input.duration_ms ∧
     (createTask store input now).dependencies = input.dependencies.getD [] ∧
     (createTask store input now).created_at = now) ∧
    ((createTask store input now).status = TaskStatus.QUEUED ↔
      (input.dependencies.getD [] = [] ∨
       ∀ d ∈ input.dependencies.getD [], depCompleted store d)) ∧
    ((createTask store input now).status = TaskStatus.WAITING ↔
      ¬(input.dependencies.getD [] = [] ∨
        ∀ d ∈ input.dependencies.getD [], depCompleted store d)) :=
  createTask_spec store input now

/-! C8: invariant I8 across committed writes. -/

/-- Writes that install a status other than WAITING or COMPLETED preserve I8:
a changed row cannot be a new WAITING task nor a new completed dependency. -/
theorem invariantI8_map {store : Store} {f : TaskRow → TaskRow}
    (hf : ∀ t, f t = t ∨
      ((f t).id = t.id ∧ (f t).dependencies = t.dependencies ∧
       (f t).status ≠ TaskStatus.WAITING ∧ (f t).status ≠ TaskStatus.COMPLETED))
    (h8 : InvariantI8 store) : InvariantI8 (store.map f) := by
  have hdep : ∀ d, depCompleted (store.map f) d → depCompleted store d := by
    rintro d ⟨u', hu', huid, hust⟩
    rcases List.mem_map.mp hu' with ⟨u, hu, huu⟩
    rcases hf u with h | h
    · refine ⟨u, hu, ?_, ?_⟩
      · rw [← huu, h] at huid; exact huid
      · rw [← huu, h] at hust; exact hust
    · rw [← huu] at hust
      exact absurd hust h.2.2.2
  intro t' ht' hst
  rcases List.mem_map.mp ht' with ⟨t, ht, htt⟩
  rcases hf t with h | h
  · rw [← htt, h] at hst
    rcases h8 t ht hst with ⟨d, hd, hdn⟩
    refine ⟨d, by rw [← htt, h]; exact hd, fun hc => hdn (hdep d hc)⟩
  · exact absurd (htt ▸ hst) h.2.2.1

theorem invariantI8_updateTaskStatus {store : Store} {taskId : String}
    {newStatus : TaskStatus} {v : Nat} {u : StatusUpdates}
    (hw : newStatus ≠ TaskStatus.WAITING) (hc : newStatus ≠ TaskStatus.COMPLETED)
    (h8 : InvariantI8 store) :
    InvariantI8 (updateTaskStatus store taskId newStatus v u).2 := by
  apply invariantI8_map (f := fun t =>
    if t.id == taskId && t.version == v then applyUpdates t newStatus u else t) _ h8
  intro t
  by_cases h : (t.id == taskId && t.version == v) = true
  · right
    simp only [h, if_true]
    exact ⟨rfl, rfl, hw, hc⟩
  · left
    simp only [h, Bool.false_eq_true, if_false]

theorem invariantI8_recoverOne {store : Store} {t : TaskRow}
    (h8 : InvariantI8 store) : InvariantI8 (recoverOne store t) := by
  unfold recoverOne
  cases getTaskWithVersion store t.id with
  | none => exact h8
  | some p => exact invariantI8_updateTaskStatus (by decide) (by decide) h8

theorem invariantI8_claimOne {now : Nat} {acc : Store × Finset String} {t : TaskRow}
    (h8 : InvariantI8 acc.1) : InvariantI8 (claimOne now acc t).1 := by
  unfold claimOne
  cases getTaskWithVersion acc.1 t.id with
  | none => exact h8
  | some p =>
    have hupd : InvariantI8
        (updateTaskStatus acc.1 t.id TaskStatus.RUNNING p.2 { started_at := some now }).2 :=
      invariantI8_updateTaskStatus (by decide) (by decide) h8
    by_cases hb :
        (updateTaskStatus acc.1 t.id TaskStatus.RUNNING p.2 { started_at := some now }).1 = true
    · simp only [hb, if_true]
      exact hupd
    · simp only [hb, if_false]
      exact hupd

theorem invariantI8_append_row {store : Store} {t : TaskRow}
    (hts : t.status ≠ TaskStatus.COMPLETED)
    (hwit : t.status = TaskStatus.WAITING → ∃ d ∈ t.dependencies, ¬ depCompleted store d)
    (h8 : InvariantI8 store) : InvariantI8 (store ++ [t]) := by
  have hdep : ∀ d, depCompleted (store ++ [t]) d → depCompleted store d := by
    rintro d ⟨u, hu, huid, hust⟩
    rcases List.mem_append.mp hu with hu | hu
    · exact ⟨u, hu, huid, hust⟩
    · rw [List.mem_singleton.mp hu] at hust
      exact absurd hust hts
  intro q hq hqst
  rcases List.mem_append.mp hq with hq | hq
  · rcases h8 q hq hqst with ⟨d, hd, hdn⟩
    exact ⟨d, hd, fun hc => hdn (hdep d hc)⟩
  · rw [List.mem_singleton.mp hq] at hqst ⊢
    rcases hwit hqst with ⟨d, hd, hdn⟩
    exact ⟨d, hd, fun hc => hdn (hdep d hc)⟩

theorem invariantI8_foldl {β : Type} {step : Store → β → Store} {L : List β}
    (hstep : ∀ st b, InvariantI8 st → InvariantI8 (step st b)) :
    ∀ {st : Store}, InvariantI8 st → InvariantI8 (L.foldl step st) := by
  induction L with
  | nil => intro st h; exact h
  | cons b L ih =>
    intro st h
    rw [List.foldl_cons]
    exact ih (hstep st b h)

theorem invariantI8_claimFold {now : Nat} {L : List TaskRow} :
    ∀ {acc : Store × Finset String}, InvariantI8 acc.1 →
      InvariantI8 ((L.foldl (claimOne now) acc).1) := by
  induction L with
  | nil => intro acc h; exact h
  | cons t L ih =>
    intro acc h
    rw [List.foldl_cons]
    exact ih (invariantI8_claimOne h)

/-- The materialized row is never COMPLETED. -/
theorem createTask_status_not_completed (store : Store) (input : TaskInput) (now : Nat) :
    (createTask store input now).status ≠ TaskStatus.COMPLETED := by
  have hstat : (createTask store input now).status =
      (if (input.dependencies.getD []).isEmpty then TaskStatus.QUEUED
       else if (input.dependencies.getD []).all (fun d =>
           (((getAllTasks store).filter (fun t => t.status == TaskStatus.COMPLETED)).map
             TaskRow.id).contains d) then TaskStatus.QUEUED
       else TaskStatus.WAITING) := rfl
  rw [hstat]
  by_cases h1 : (input.dependencies.getD []).isEmpty = true
  · rw [if_pos h1]; decide
  · rw [if_neg h1]
    by_cases h2 : (input.dependencies.getD []).all (fun d =>
        (((getAllTasks store).filter (fun t => t.status == TaskStatus.COMPLETED)).map
          TaskRow.id).contains d) = true
    · rw [if_pos h2]; decide
    · rw [if_neg h2]; decide

/-- C8 fails on the code: I8 holds before the runner's terminal COMPLETED
write for the dependency, the write is a legitimate system step, and I8 is
violated in the state immediately after it commits — the dependent stays
WAITING with every dependency COMPLETED until a later tick claims it. -/
theorem invariantI8_broken_by_completed_write :
    InvariantI8 i8PreState.store ∧
    Step i8PreState (terminalResult i8PreState "d" TaskStatus.COMPLETED 100 none) ∧
    ¬ InvariantI8 (terminalResult i8PreState "d" TaskStatus.COMPLETED 100 none).store :=
  ⟨by decide, Step.terminalSuccess i8PreState "d" 100 (by decide), by decide⟩

/-- C8 as amended: I8 is preserved by every committed write except a terminal
COMPLETED write — submissions, scheduling-tick claim writes, recovery writes
and terminal FAILED writes all keep it.  (A dependency's terminal COMPLETED
write can break it, as the counterexample shows; such a dependent is then
ready and is claimed directly from WAITING.) -/
theorem invariantI8_preserved_except_completed (s : SysState)
    (h8 : InvariantI8 s.store) :
    (∀ input now, InvariantI8 (submitResult s input now).store) ∧
    (∀ now, InvariantI8 (tickResult s now).store) ∧
    InvariantI8 (recoverStore s.store) ∧
    (∀ taskId now msg,
      InvariantI8 (terminalResult s taskId TaskStatus.FAILED now (some msg)).store) := by
  refine ⟨?_, ?_, ?_, ?_⟩
  · intro input now
    unfold submitResult
    cases validateTaskInput s.store input with
    | some e => exact h8
    | none =>
      simp only
      unfold insertTask
      by_cases hcol : s.store.any (fun u => u.id == (createTask s.store input now).id) = true
      · rw [if_pos hcol]
        exact h8
      · rw [if_neg hcol]
        simp only
        apply invariantI8_append_row _ _ h8
        · show ({ createTask s.store input now with version := 0 } : TaskRow).status
            ≠ TaskStatus.COMPLETED
          exact createTask_status_not_completed s.store input now
        · intro hw
          have h3 := (createTask_spec s.store input now).2.2
          have h5 := (createTask_spec s.store input now).1.2.2.2.1
          rw [show ({ createTask s.store input now with version := 0 } : TaskRow).status
              = (createTask s.store input now).status from rfl] at hw
          have := h3.mp hw
          push_neg at this
          rcases this with ⟨-, d, hdm, hdn⟩
          exact ⟨d, by
            show d ∈ ({ createTask s.store input now with version := 0 } : TaskRow).dependencies
            rw [show ({ createTask s.store input now with version := 0 } : TaskRow).dependencies
              = (createTask s.store input now).dependencies from rfl, h5]
            exact hdm, hdn⟩
  · intro now
    unfold tickResult
    exact invariantI8_claimFold h8
  · unfold recoverStore
    exact invariantI8_foldl (fun st b h => invariantI8_recoverOne h) h8
  · intro taskId now msg
    unfold terminalResult
    cases getTaskWithVersion s.store taskId with
    | none => exact h8
    | some p => exact invariantI8_updateTaskStatus (by decide) (by decide) h8

/-- Witness for the amended C8 theorem at a concrete I8-satisfying state. -/
theorem invariantI8_preserved_except_completed_witness :
    (∀ input now, InvariantI8 (submitResult i8PreState input now).store) ∧
    (∀ now, InvariantI8 (tickResult i8PreState now).store) ∧
    InvariantI8 (recoverStore i8PreState.store) ∧
    (∀ taskId now msg,
      InvariantI8 (terminalResult i8PreState taskId TaskStatus.FAILED now (some msg)).store) :=
  invariantI8_preserved_except_completed i8PreState (by decide)

/-! The scheduling tick's claim loop, characterized. -/

/-- Effect of the claim loop of one tick on the store and the in-flight set:
row ids are preserved; every row either keeps its status or moves from
QUEUED/WAITING to RUNNING; and every id in the resulting in-flight set was
already in flight or is now backed by a RUNNING row. -/
theorem claimFold_spec (now : Nat) :
    ∀ (L : List TaskRow) (store : Store) (run : Finset String),
    (store.map TaskRow.id).Nodup →
    (L.map TaskRow.id).Nodup →
    (∀ t ∈ L, statusAt store t.id = some TaskStatus.QUEUED
        ∨ statusAt store t.id = some TaskStatus.WAITING) →
    ((L.foldl (claimOne now) (store, run)).1.map TaskRow.id = store.map TaskRow.id) ∧
    (∀ x, statusAt (L.foldl (claimOne now) (store, run)).1 x = statusAt store x ∨
       ((statusAt store x = some TaskStatus.QUEUED
           ∨ statusAt store x = some TaskStatus.WAITING) ∧
        statusAt (L.foldl (claimOne now) (store, run)).1 x = some TaskStatus.RUNNING)) ∧
    (∀ a ∈ (L.foldl (claimOne now) (store, run)).2,
       a ∈ run ∨ statusAt (L.foldl (claimOne now) (store, run)).1 a
         = some TaskStatus.RUNNING) := by
  intro L
  induction L with
  | nil =>
    intro store run hnd hLnd hst
    exact ⟨rfl, fun x => Or.inl rfl, fun a ha => Or.inl ha⟩
  | cons t L ih =>
    intro store run hnd hLnd hst
    have htQW := hst t (List.mem_cons_self t L)
    have hrow : ∃ row, getTask store t.id = some row := by
      cases hg : getTask store t.id with
      | none =>
        rcases htQW with h | h <;> (unfold statusAt at h; rw [hg] at h; cases h)
      | some row => exact ⟨row, rfl⟩
    rcases hrow with ⟨row, hg⟩
    have hrowmem := (getTask_some hg).1
    have hrowid := (getTask_some hg).2
    have happlied := updateTaskStatus_applied TaskStatus.RUNNING
      { started_at := some now } hnd hrowmem hrowid
    have hgv : getTaskWithVersion store t.id = some (row, row.version) := by
      unfold getTaskWithVersion; rw [hg]; rfl
    have hclaim : claimOne now (store, run) t
        = ((updateTaskStatus store t.id TaskStatus.RUNNING row.version
              { started_at := some now }).2,
           insert t.id run) := by
      unfold claimOne
      rw [hgv]
      simp only [happlied]
      exact if_pos trivial
    have hS1t : statusAt (updateTaskStatus store t.id TaskStatus.RUNNING row.version
        { started_at := some now }).2 t.id = some TaskStatus.RUNNING := by
      unfold statusAt
      rw [getTask_after_applied TaskStatus.RUNNING { started_at := some now }
        hnd hrowmem hrowid]
      rfl
    have hS1other : ∀ x, x ≠ t.id →
        statusAt (updateTaskStatus store t.id TaskStatus.RUNNING row.version
          { started_at := some now }).2 x = statusAt store x := by
      intro x hx
      unfold statusAt
      rw [updateTaskStatus_getTask_other _ _ _ _ _ hx]
    have hnd1 : ((updateTaskStatus store t.id TaskStatus.RUNNING row.version
        { started_at := some now }).2.map TaskRow.id).Nodup := by
      rw [updateTaskStatus_ids]; exact hnd
    rw [List.map_cons] at hLnd
    rcases List.nodup_cons.mp hLnd with ⟨htid_not, hLnd1⟩
    have hstat1 : ∀ q ∈ L,
        statusAt (updateTaskStatus store t.id TaskStatus.RUNNING row.version
          { started_at := some now }).2 q.id = some TaskStatus.QUEUED
        ∨ statusAt (updateTaskStatus store t.id TaskStatus.RUNNING row.version
          { started_at := some now }).2 q.id = some TaskStatus.WAITING := by
      intro q hq
      have hne : q.id ≠ t.id := fun he => htid_not (he ▸ List.mem_map_of_mem TaskRow.id hq)
      rw [hS1other q.id hne]
      exact hst q (List.mem_cons_of_mem t hq)
    have IH := ih (updateTaskStatus store t.id TaskStatus.RUNNING row.version
      { started_at := some now }).2 (insert t.id run) hnd1 hLnd1 hstat1
    have hfold : (t :: L).foldl (claimOne now) (store, run)
        = L.foldl (claimOne now)
          ((updateTaskStatus store t.id TaskStatus.RUNNING row.version
            { started_at := some now }).2, insert t.id run) := by
      rw [List.foldl_cons, hclaim]
    rw [hfold]
    refine ⟨?_, ?_, ?_⟩
    · rw [IH.1, updateTaskStatus_ids]
    · intro x
      rcases IH.2.1 x with hA | hA
      · by_cases hx : x = t.id
        · subst hx
          right
          rw [hA, hS1t]
          exact ⟨htQW, rfl⟩
        · left
          rw [hA, hS1other x hx]
      · by_cases hx : x = t.id
        · subst hx
          exact Or.inr ⟨htQW, hA.2⟩
        · right
          rw [hS1other x hx] at hA
          exact hA
    · intro a ha
      rcases IH.2.2 a ha with hA | hA
      · rcases Finset.mem_insert.mp hA with heq | hA2
        · right
          subst heq
          rcases IH.2.1 t.id with hB | hB
          · rw [hB, hS1t]
          · exact hB.2
        · exact Or.inl hA2
      · exact Or.inr hA

/-- Cardinality effect of the claim loop: at most one id enters the in-flight
set per attempted task. -/
theorem claimFold_card (now : Nat) :
    ∀ (L : List TaskRow) (acc : Store × Finset String),
      ((L.foldl (claimOne now) acc).2).card ≤ acc.2.card + L.length := by
  intro L
  induction L with
  | nil => intro acc; simp
  | cons t L ih =>
    intro acc
    rw [List.foldl_cons]
    have hone : (claimOne now acc t).2.card ≤ acc.2.card + 1 := by
      unfold claimOne
      cases hgv : getTaskWithVersion acc.1 t.id with
      | none =>
        simp only [hgv]
        omega
      | some p =>
        simp only [hgv]
        by_cases hb : (updateTaskStatus acc.1 t.id TaskStatus.RUNNING p.2
            { started_at := some now }).1 = true
        · simp only [hb, if_true]
          exact Finset.card_insert_le _ _
        · simp only [hb, Bool.false_eq_true, if_false]
          omega
    calc ((L.foldl (claimOne now) (claimOne now acc t)).2).card
        ≤ (claimOne now acc t).2.card + L.length := ih _
      _ ≤ (acc.2.card + 1) + L.length := Nat.add_le_add_right hone _
      _ = acc.2.card + (t :: L).length := by simp [List.length_cons]; omega

/-! Shape lemmas for the step results. -/

theorem tickResult_max (s : SysState) (now : Nat) :
    (tickResult s now).maxConcurrent = s.maxConcurrent := rfl

theorem tickResult_store (s : SysState) (now : Nat) :
    (tickResult s now).store
      = ((tickToExec s).foldl (claimOne now) (s.store, s.runningTasks)).1 := rfl

theorem tickResult_running (s : SysState) (now : Nat) :
    (tickResult s now).runningTasks
      = ((tickToExec s).foldl (claimOne now) (s.store, s.runningTasks)).2 := rfl

theorem terminalResult_running (s : SysState) (taskId : String) (st : TaskStatus)
    (now : Nat) (err : Option String) :
    (terminalResult s taskId st now err).runningTasks = s.runningTasks.erase taskId := by
  unfold terminalResult
  cases getTaskWithVersion s.store taskId <;> rfl

theorem terminalResult_max (s : SysState) (taskId : String) (st : TaskStatus)
    (now : Nat) (err : Option String) :
    (terminalResult s taskId st now err).maxConcurrent = s.maxConcurrent := by
  unfold terminalResult
  cases getTaskWithVersion s.store taskId <;> rfl

theorem submitResult_running (s : SysState) (input : TaskInput) (now : Nat) :
    (submitResult s input now).runningTasks = s.runningTasks := by
  unfold submitResult
  cases validateTaskInput s.store input <;> rfl

theorem submitResult_max (s : SysState) (input : TaskInput) (now : Nat) :
    (submitResult s input now).maxConcurrent = s.maxConcurrent := by
  unfold submitResult
  cases validateTaskInput s.store input <;> rfl

theorem submitResult_store_shape (s : SysState) (input : TaskInput) (now : Nat) :
    (submitResult s input now).store = s.store ∨
    ∃ t : TaskRow, (s.store.any (fun u => u.id == t.id)) = false ∧
      t.status ≠ TaskStatus.COMPLETED ∧
      (submitResult s input now).store = s.store ++ [t] := by
  unfold submitResult
  cases validateTaskInput s.store input with
  | some e => exact Or.inl rfl
  | none =>
    simp only
    unfold insertTask
    by_cases h : s.store.any (fun u => u.id == (createTask s.store input now).id) = true
    · rw [if_pos h]
      exact Or.inl rfl
    · rw [if_neg h]
      right
      refine ⟨{ createTask s.store input now with version := 0 }, ?_, ?_, rfl⟩
      · show s.store.any (fun u => u.id == (createTask s.store input now).id) = false
        cases hb : s.store.any (fun u => u.id == (createTask s.store input now).id) with
        | false => rfl
        | true => exact absurd hb h
      · show (createTask s.store input now).status ≠ TaskStatus.COMPLETED
        exact createTask_status_not_completed s.store input now

theorem submitResult_ids_nodup {s : SysState} (input : TaskInput) (now : Nat)
    (hnd : (s.store.map TaskRow.id).Nodup) :
    ((submitResult s input now).store.map TaskRow.id).Nodup := by
  unfold submitResult
  cases validateTaskInput s.store input with
  | some e => exact hnd
  | none => exact insertTask_ids_nodup hnd

/-! Membership facts about the tasks a tick attempts. -/

theorem mem_tickToExec {s : SysState} {t : TaskRow} (h : t ∈ tickToExec s) :
    t ∈ getReadyTasks s.store := by
  unfold tickToExec at h
  by_cases h0 : s.maxConcurrent - s.runningTasks.card = 0
  · rw [if_pos h0] at h
    cases h
  · rw [if_neg h0] at h
    exact mem_byCreated.mp (List.take_subset _ _ h)

theorem tickToExec_ids_nodup {s : SysState}
    (hnd : (s.store.map TaskRow.id).Nodup) :
    ((tickToExec s).map TaskRow.id).Nodup := by
  unfold tickToExec
  by_cases h0 : s.maxConcurrent - s.runningTasks.card = 0
  · rw [if_pos h0]
    exact List.nodup_nil
  · rw [if_neg h0]
    have h1 : ((byCreated (getReadyTasks s.store)).map TaskRow.id).Nodup :=
      byCreated_ids_nodup (getReadyTasks_ids_nodup hnd)
    exact List.Nodup.sublist (List.Sublist.map TaskRow.id (List.take_sublist _ _)) h1

theorem tickToExec_length {s : SysState} :
    (tickToExec s).length ≤ s.maxConcurrent - s.runningTasks.card := by
  unfold tickToExec
  by_cases h0 : s.maxConcurrent - s.runningTasks.card = 0
  · rw [if_pos h0]
    exact Nat.zero_le _
  · rw [if_neg h0]
    exact List.length_take_le _ _

theorem tickToExec_status {s : SysState} (hnd : (s.store.map TaskRow.id).Nodup) :
    ∀ t ∈ tickToExec s, statusAt s.store t.id = some TaskStatus.QUEUED
      ∨ statusAt s.store t.id = some TaskStatus.WAITING := by
  intro t ht
  have hready := mem_tickToExec ht
  rcases mem_getReadyTasks hready with ⟨hmem, hqw⟩
  have hget := getTask_eq_of_mem hnd hmem
  unfold statusAt
  rw [hget]
  rcases hqw with h | h
  · exact Or.inl (by simp [h])
  · exact Or.inr (by simp [h])

theorem statusAt_running_exists {store : Store} {x : String}
    (h : statusAt store x = some TaskStatus.RUNNING) :
    ∃ t ∈ store, t.id = x ∧ t.status = TaskStatus.RUNNING := by
  unfold statusAt at h
  cases hg : getTask store x with
  | none => rw [hg] at h; cases h
  | some t =>
    rw [hg] at h
    refine ⟨t, (getTask_some hg).1, (getTask_some hg).2, ?_⟩
    exact Option.some.inj h

theorem statusAt_of_mem {store : Store} {t : TaskRow}
    (hnd : (store.map TaskRow.id).Nodup) (ht : t ∈ store) :
    statusAt store t.id = some t.status := by
  unfold statusAt
  rw [getTask_eq_of_mem hnd ht]
  rfl

/-! Invariant preservation and terminal-status preservation per step. -/

theorem inv_init {s : SysState} (h : InitOk s) : Inv s := by
  refine ⟨h.2, ?_⟩
  intro a ha
  rw [h.1] at ha
  exact absurd ha (Finset.not_mem_empty a)

theorem step_inv_and_terminal_write {s : SysState} {taskId : String} {st : TaskStatus}
    {now : Nat} {err : Option String}
    (hnd : (s.store.map TaskRow.id).Nodup)
    (hback : ∀ a ∈ s.runningTasks,
      ∃ t ∈ s.store, t.id = a ∧ t.status = TaskStatus.RUNNING)
    (hmem : taskId ∈ s.runningTasks) :
    Inv (terminalResult s taskId st now err) ∧
    ∀ x stx, statusAt s.store x = some stx →
      (stx = TaskStatus.COMPLETED ∨ stx = TaskStatus.FAILED) →
      statusAt (terminalResult s taskId st now err).store x = some stx := by
  rcases hback taskId hmem with ⟨trow, htm, htid, htst⟩
  have hg0 : getTask s.store taskId = some trow := by
    rw [← htid]; exact getTask_eq_of_mem hnd htm
  have hgv : getTaskWithVersion s.store taskId = some (trow, trow.version) := by
    unfold getTaskWithVersion
    rw [hg0]
    rfl
  have hts : (terminalResult s taskId st now err).store
      = (updateTaskStatus s.store taskId st trow.version
          { completed_at := some now, error := err }).2 := by
    unfold terminalResult
    rw [hgv]
  refine ⟨⟨?_, ?_⟩, ?_⟩
  · rw [hts, updateTaskStatus_ids]
    exact hnd
  · intro a ha
    rw [terminalResult_running] at ha
    rcases Finset.mem_erase.mp ha with ⟨hane, hamem⟩
    rcases hback a hamem with ⟨arow, ham, haid, hast⟩
    have hsa : statusAt (terminalResult s taskId st now err).store a
        = some TaskStatus.RUNNING := by
      rw [hts]
      unfold statusAt
      rw [updateTaskStatus_getTask_other _ _ _ _ _ hane]
      have hga : getTask s.store a = some arow := by
        rw [← haid]; exact getTask_eq_of_mem hnd ham
      rw [hga]
      simp [hast]
    rcases statusAt_running_exists hsa with ⟨brow, hbm, hbid, hbst⟩
    exact ⟨brow, hbm, hbid, hbst⟩
  · intro x stx hx hterm
    by_cases hxid : x = taskId
    · subst hxid
      rw [show statusAt s.store x = some trow.status from by
        rw [← htid]; exact statusAt_of_mem hnd htm] at hx
      have := Option.some.inj hx
      rw [htst] at this
      rcases hterm with h | h <;> (rw [h] at this; cases this)
    · rw [hts]
      unfold statusAt at hx ⊢
      rw [updateTaskStatus_getTask_other _ _ _ _ _ hxid]
      exact hx

theorem step_inv_and_terminal {s s' : SysState} (hinv : Inv s) (hstep : Step s s') :
    Inv s' ∧
    ∀ x st, statusAt s.store x = some st →
      (st = TaskStatus.COMPLETED ∨ st = TaskStatus.FAILED) →
      statusAt s'.store x = some st := by
  rcases hinv with ⟨hnd, hback⟩
  cases hstep with
  | tick now =>
    have spec := claimFold_spec now (tickToExec s) s.store s.runningTasks hnd
      (tickToExec_ids_nodup hnd) (tickToExec_status hnd)
    constructor
    · constructor
      · rw [tickResult_store, spec.1]
        exact hnd
      · intro a ha
        rw [tickResult_running] at ha
        have hrun : statusAt (tickResult s now).store a = some TaskStatus.RUNNING := by
          rcases spec.2.2 a ha with hA | hA
          · rcases hback a hA with ⟨trow, htm, htid, htst⟩
            have hsa : statusAt s.store a = some TaskStatus.RUNNING := by
              rw [← htid, statusAt_of_mem hnd htm, htst]
            rcases spec.2.1 a with hB | hB
            · rw [tickResult_store, hB, hsa]
            · rw [hsa] at hB
              rcases hB.1 with hc | hc <;> cases Option.some.inj hc
          · rw [tickResult_store]
            exact hA
        rcases statusAt_running_exists hrun with ⟨trow, htm, htid, htst⟩
        exact ⟨trow, htm, htid, htst⟩
    · intro x st hx hterm
      rcases spec.2.1 x with hB | hB
      · rw [tickResult_store, hB, hx]
      · rw [hx] at hB
        rcases hB.1 with hc | hc <;> rcases hterm with ht | ht <;>
          (rw [ht] at hc; cases Option.some.inj hc)
  | terminalSuccess taskId now hmem =>
    exact step_inv_and_terminal_write hnd hback hmem
  | terminalFailure taskId now msg hmem =>
    exact step_inv_and_terminal_write hnd hback hmem
  | recover hrun =>
    constructor
    · constructor
      · show ((recoverStore s.store).map TaskRow.id).Nodup
        rw [recoverStore_char hnd, ids_map_of_id]
        · exact hnd
        · intro t
          unfold recoverRow
          by_cases h : t.status = TaskStatus.RUNNING
          · rw [if_pos h]; rfl
          · rw [if_neg h]
      · intro a ha
        rw [show ({ s with store := recoverStore s.store } : SysState).runningTasks
          = s.runningTasks from rfl, hrun] at ha
        exact absurd ha (Finset.not_mem_empty a)
    · intro x st hx hterm
      show statusAt (recoverStore s.store) x = some st
      rw [recoverStore_char hnd]
      unfold statusAt at hx ⊢
      rw [getTask_map_of_id s.store recoverRow (fun t => by
        unfold recoverRow
        by_cases h : t.status = TaskStatus.RUNNING
        · rw [if_pos h]; rfl
        · rw [if_neg h]) x]
      cases hg : getTask s.store x with
      | none => rw [hg] at hx; cases hx
      | some u =>
        rw [hg] at hx
        have hust : u.status = st := Option.some.inj hx
        have hur : recoverRow u = u := by
          unfold recoverRow
          rw [if_neg]
          rw [hust]
          rcases hterm with h | h <;> (rw [h]; exact fun hc => by cases hc)
        rw [Option.map_map]
        show some ((TaskRow.status ∘ recoverRow) u) = some st
        simp only [Function.comp_apply, hur, hust]
  | crash =>
    constructor
    · constructor
      · exact hnd
      · intro a ha
        exact absurd ha (Finset.not_mem_empty a)
    · intro x st hx hterm
      exact hx
  | submit input now =>
    constructor
    · constructor
      · exact submitResult_ids_nodup input now hnd
      · intro a ha
        rw [submitResult_running] at ha
        rcases hback a ha with ⟨trow, htm, htid, htst⟩
        rcases submitResult_store_shape s input now with hsh | ⟨u, hu1, hu2, hsh⟩
        · exact ⟨trow, hsh ▸ htm, htid, htst⟩
        · exact ⟨trow, hsh ▸ List.mem_append_left [u] htm, htid, htst⟩
    · intro x st hx hterm
      rcases submitResult_store_shape s input now with hsh | ⟨u, hu1, hu2, hsh⟩
      · rw [hsh]
        exact hx
      · rw [hsh]
        unfold statusAt at hx ⊢
        rw [getTask_append_left]
        · exact hx
        · cases hg : getTask s.store x with
          | none => rw [hg] at hx; cases hx
          | some q => rfl

theorem inv_reachable {s₀ s : SysState} (hinit : InitOk s₀) (hreach : Reachable s₀ s) :
    Inv s := by
  induction hreach with
  | refl => exact inv_init hinit
  | tail h1 hstep ih => exact (step_inv_and_terminal ih hstep).1

/-- C3: terminal states are never exited.

From any state reachable from a clean start, no step of the system — a
scheduler tick, a runner terminal write, recovery, a crash, or a submission —
changes the status of a task that is COMPLETED or FAILED. -/
theorem terminal_status_preserved (s₀ s s' : SysState)
    (hinit : InitOk s₀) (hreach : Reachable s₀ s) (hstep : Step s s') :
    ∀ x st, statusAt s.store x = some st →
      (st = TaskStatus.COMPLETED ∨ st = TaskStatus.FAILED) →
      statusAt s'.store x = some st :=
  (step_inv_and_terminal (inv_reachable hinit hreach) hstep).2

/-- Witness for the C3 theorem: a crash step leaves the COMPLETED row
COMPLETED. -/
theorem terminal_status_preserved_witness :
    statusAt ({ c3Init with runningTasks := ∅ } : SysState).store "a"
      = some TaskStatus.COMPLETED :=
  terminal_status_preserved c3Init c3Init { c3Init with runningTasks := ∅ }
    ⟨rfl, by decide⟩ Relation.ReflTransGen.refl (Step.crash c3Init)
    "a" TaskStatus.COMPLETED (by decide) (Or.inl rfl)

/-- Per-step preservation of the concurrency bound. -/
theorem step_card_le {s s' : SysState} (hstep : Step s s')
    (hc : s.runningTasks.card ≤ s.maxConcurrent) :
    s'.runningTasks.card ≤ s'.maxConcurrent := by
  cases hstep with
  | tick now =>
    rw [tickResult_running, tickResult_max]
    refine le_trans (claimFold_card now (tickToExec s) (s.store, s.runningTasks)) ?_
    refine le_trans (Nat.add_le_add_left tickToExec_length _) ?_
    rw [Nat.add_sub_cancel' hc]
  | terminalSuccess taskId now hmem =>
    rw [terminalResult_running, terminalResult_max]
    exact le_trans (Finset.card_erase_le) hc
  | terminalFailure taskId now msg hmem =>
    rw [terminalResult_running, terminalResult_max]
    exact le_trans (Finset.card_erase_le) hc
  | recover hrun => exact hc
  | crash =>
    show (∅ : Finset String).card ≤ s.maxConcurrent
    simp
  | submit input now =>
    rw [submitResult_running, submitResult_max]
    exact hc

/-- C2: the concurrency bound.

In every state reachable from a clean start, the in-flight set (the
executor's runningTasks) has at most max_concurrent elements, and a
scheduling tick enlarges it by at most the free-slot count
max_concurrent − |in_flight|. -/
theorem concurrency_bound (s₀ s : SysState) (hinit : InitOk s₀)
    (hreach : Reachable s₀ s) :
    s.runningTasks.card ≤ s.maxConcurrent ∧
    ∀ now, (tickResult s now).runningTasks.card
      ≤ s.runningTasks.card + (s.maxConcurrent - s.runningTasks.card) := by
  have hcard : s.runningTasks.card ≤ s.maxConcurrent := by
    induction hreach with
    | refl => rw [hinit.1]; simp
    | tail h1 hstep ih => exact step_card_le hstep ih
  refine ⟨hcard, ?_⟩
  intro now
  rw [tickResult_running]
  refine le_trans (claimFold_card now (tickToExec s) (s.store, s.runningTasks)) ?_
  exact Nat.add_le_add_left tickToExec_length _

/-- Witness for the C2 theorem at a concrete reachable state. -/
theorem concurrency_bound_witness :
    c3Init.runningTasks.card ≤ c3Init.maxConcurrent ∧
    ∀ now, (tickResult c3Init now).runningTasks.card
      ≤ c3Init.runningTasks.card + (c3Init.maxConcurrent - c3Init.runningTasks.card) :=
  concurrency_bound c3Init c3Init ⟨rfl, by decide⟩ Relation.ReflTransGen.refl

/-! C7: claim-attempt order within a tick. -/

/-- C7 fails on the code: with two ready tasks of equal created_at, the tick
attempts them in store (insertion) order — here b before a — even though
"a" is lexicographically smaller.  Neither the SQL `ORDER BY created_at ASC`
nor the scheduler's `sort((a, b) => a.created_at - b.created_at)` ever
consults task ids. -/
theorem tick_order_not_id_tiebroken :
    ((tickToExec c7State).map TaskRow.id = ["b", "a"]) ∧
    "a" < "b" ∧
    (∃ ra ∈ getReadyTasks c7State.store, ra.id = "a") ∧
    (∃ rb ∈ getReadyTasks c7State.store, rb.id = "b") ∧
    (∀ t ∈ getReadyTasks c7State.store, t.created_at = 7) ∧
    c7State.maxConcurrent - c7State.runningTasks.card = 3 := by
  have hab : "a" < "b" := String.lt_iff_toList_lt.mpr (by decide)
  exact ⟨by decide, hab, by decide, by decide, by decide, by decide⟩

/-- C7 as amended: in every tick, claim attempts are made on the first
free-slot-count entries of the ready tasks ordered by created_at ascending;
equal created_at values are not tie-broken by id (the order of ties follows
the store's row enumeration). -/
theorem tick_order_sorted_by_created_at (s : SysState) :
    List.Pairwise (fun a b : TaskRow => a.created_at ≤ b.created_at) (tickToExec s) ∧
    (tickToExec s).length ≤ s.maxConcurrent - s.runningTasks.card ∧
    (∀ t ∈ tickToExec s, t ∈ getReadyTasks s.store) := by
  refine ⟨?_, tickToExec_length, fun t ht => mem_tickToExec ht⟩
  unfold tickToExec
  by_cases h0 : s.maxConcurrent - s.runningTasks.card = 0
  · rw [if_pos h0]
    exact List.Pairwise.nil
  · rw [if_neg h0]
    exact List.Pairwise.sublist (List.take_sublist _ _)
      (byCreated_sorted (getReadyTasks s.store))

/-! C6: cycle detection.  The DFS of `detectCycle` is proved to decide
reachability of the candidate id from its dependencies, and thereby whether
the new edges close a cycle. -/

theorem lookup_cons_self {x : String} {v : List String}
    {es : List (String × List String)} :
    List.lookup x ((x, v) :: es) = some v := by
  simp [List.lookup]

theorem lookup_cons_ne {x k : String} (hne : x ≠ k) {v : List String}
    {es : List (String × List String)} :
    List.lookup x ((k, v) :: es) = List.lookup x es := by
  simp [List.lookup, beq_false_of_ne hne]

theorem lookup_mem {g : List (String × List String)} {x : String} {l : List String}
    (h : g.lookup x = some l) : (x, l) ∈ g := by
  induction g with
  | nil => cases h
  | cons p g ih =>
    obtain ⟨k, v⟩ := p
    by_cases hx : x = k
    · subst hx
      rw [lookup_cons_self] at h
      have hv : v = l := Option.some.inj h
      subst hv
      exact List.mem_cons_self _ _
    · rw [lookup_cons_ne hx] at h
      exact List.mem_cons_of_mem _ (ih h)

theorem nodeList_cons (p : String × List String) (g : List (String × List String)) :
    nodeList (p :: g) = p.1 :: (p.2 ++ nodeList g) := rfl

theorem lookup_eq_none {g : List (String × List String)} {x : String}
    (h : ∀ p ∈ g, p.1 ≠ x) : g.lookup x = none := by
  induction g with
  | nil => rfl
  | cons p g ih =>
    have h1 : x ≠ p.1 := fun he => h p (List.mem_cons_self p g) he.symm
    rw [show p = (p.1, p.2) from rfl, lookup_cons_ne h1]
    exact ih (fun q hq => h q (List.mem_cons_of_mem p hq))

theorem mem_nodeList_key {g : List (String × List String)} {x : String}
    {l : List String} (h : (x, l) ∈ g) : x ∈ nodeList g := by
  induction g with
  | nil => cases h
  | cons p g ih =>
    obtain ⟨k, v⟩ := p
    rw [nodeList_cons]
    rcases List.mem_cons.mp h with h | h
    · cases h
      exact List.mem_cons_self _ _
    · exact List.mem_cons_of_mem _ (List.mem_append_right _ (ih h))

theorem mem_nodeList_value {g : List (String × List String)} {x y : String}
    {l : List String} (h : (x, l) ∈ g) (hy : y ∈ l) : y ∈ nodeList g := by
  induction g with
  | nil => cases h
  | cons p g ih =>
    obtain ⟨k, v⟩ := p
    rw [nodeList_cons]
    rcases List.mem_cons.mp h with h | h
    · cases h
      exact List.mem_cons_of_mem _ (List.mem_append_left _ hy)
    · exact List.mem_cons_of_mem _ (List.mem_append_right _ (ih h))

theorem depEdge_target_mem_nodeList {g : List (String × List String)} {x y : String}
    (h : depEdge g x y) : y ∈ nodeList g := by
  rcases h with ⟨l, hl, hy⟩
  exact mem_nodeList_value (lookup_mem hl) hy

/-- Unfolding equation of `hasCycleAux` at positive fuel. -/
theorem hasCycleAux_succ (g : List (String × List String)) (target : String)
    (fuel : Nat) (current : String) (visited : List String) :
    hasCycleAux g target (fuel + 1) current visited =
      (if current = target then (true, visited)
       else if current ∈ visited then (false, visited)
       else hasCycleFold g target fuel (false, current :: visited)
         ((g.lookup current).getD [])) := rfl

theorem hasCycleFold_cons (g : List (String × List String)) (target : String)
    (fuel : Nat) (acc : Bool × List String) (d : String) (ds : List String) :
    hasCycleFold g target fuel acc (d :: ds) =
      hasCycleFold g target fuel
        (if acc.1 then acc else hasCycleAux g target fuel d acc.2) ds := rfl

theorem hasCycleFold_of_true {g : List (String × List String)} {target : String}
    {fuel : Nat} {acc : Bool × List String} (h : acc.1 = true) :
    ∀ ds, hasCycleFold g target fuel acc ds = acc := by
  intro ds
  induction ds with
  | nil => rfl
  | cons d ds ih =>
    rw [hasCycleFold_cons, if_pos h]
    exact ih

/-- The DFS only ever grows the visited set. -/
theorem hasCycleAux_mono {g : List (String × List String)} {target : String} :
    ∀ fuel current visited,
      ∀ x ∈ visited, x ∈ (hasCycleAux g target fuel current visited).2 := by
  intro fuel
  induction fuel with
  | zero => intro c V x hx; exact hx
  | succ fuel ih =>
    have hfold : ∀ (ds : List String) (acc : Bool × List String),
        ∀ x ∈ acc.2, x ∈ (hasCycleFold g target fuel acc ds).2 := by
      intro ds
      induction ds with
      | nil => intro acc x hx; exact hx
      | cons d ds ihd =>
        intro acc x hx
        rw [hasCycleFold_cons]
        apply ihd
        by_cases hb : acc.1 = true
        · rw [if_pos hb]; exact hx
        · rw [if_neg hb]; exact ih d acc.2 x hx
    intro c V x hx
    rw [hasCycleAux_succ]
    by_cases h1 : c = target
    · rw [if_pos h1]; exact hx
    · rw [if_neg h1]
      by_cases h2 : c ∈ V
      · rw [if_pos h2]; exact hx
      · rw [if_neg h2]
        exact hfold _ _ x (List.mem_cons_of_mem c hx)

theorem hasCycleFold_mono {g : List (String × List String)} {target : String}
    {fuel : Nat} :
    ∀ (ds : List String) (acc : Bool × List String),
      ∀ x ∈ acc.2, x ∈ (hasCycleFold g target fuel acc ds).2 := by
  intro ds
  induction ds with
  | nil => intro acc x hx; exact hx
  | cons d ds ihd =>
    intro acc x hx
    rw [hasCycleFold_cons]
    apply ihd
    by_cases hb : acc.1 = true
    · rw [if_pos hb]; exact hx
    · rw [if_neg hb]; exact hasCycleAux_mono fuel d acc.2 x hx

/-- Soundness: when the DFS reports a hit, the target is reachable from the
start node along dependency edges. -/
theorem hasCycleAux_sound {g : List (String × List String)} {target : String} :
    ∀ fuel current visited,
      (hasCycleAux g target fuel current visited).1 = true →
      Relation.ReflTransGen (depEdge g) current target := by
  intro fuel
  induction fuel with
  | zero => intro c V h; cases h
  | succ fuel ih =>
    have hfold : ∀ (ds : List String) (acc : Bool × List String),
        (hasCycleFold g target fuel acc ds).1 = true →
        acc.1 = true ∨ ∃ d ∈ ds, ∃ V,
          (hasCycleAux g target fuel d V).1 = true := by
      intro ds
      induction ds with
      | nil => intro acc h; exact Or.inl h
      | cons d ds ihd =>
        intro acc h
        rw [hasCycleFold_cons] at h
        by_cases hb : acc.1 = true
        · exact Or.inl hb
        · rw [if_neg hb] at h
          rcases ihd _ h with h2 | ⟨d2, hd2, V2, h2⟩
          · exact Or.inr ⟨d, List.mem_cons_self d ds, acc.2, h2⟩
          · exact Or.inr ⟨d2, List.mem_cons_of_mem d hd2, V2, h2⟩
    intro c V h
    rw [hasCycleAux_succ] at h
    by_cases h1 : c = target
    · exact h1 ▸ Relation.ReflTransGen.refl
    · rw [if_neg h1] at h
      by_cases h2 : c ∈ V
      · rw [if_pos h2] at h; cases h
      · rw [if_neg h2] at h
        rcases hfold _ _ h with h3 | ⟨d, hd, V2, h3⟩
        · cases h3
        · cases hl : g.lookup c with
          | none =>
            rw [hl] at hd
            cases hd
          | some l =>
            rw [hl] at hd
            exact Relation.ReflTransGen.head ⟨l, hl, hd⟩ (ih d V2 h3)

theorem missingCount_mono {V V' : List String} (h : ∀ x ∈ V, x ∈ V')
    (U : List String) : missingCount U V' ≤ missingCount U V := by
  induction U with
  | nil => exact Nat.le_refl _
  | cons a U ih =>
    unfold missingCount at *
    rw [List.filter_cons, List.filter_cons]
    by_cases h1 : a ∈ V'
    · have hb1 : (!V'.contains a) = false := by simp [h1]
      rw [hb1]
      by_cases h2 : a ∈ V
      · have hb2 : (!V.contains a) = false := by simp [h2]
        rw [hb2]
        simp only [Bool.false_eq_true, if_false]
        exact ih
      · have hb2 : (!V.contains a) = true := by simp [h2]
        rw [hb2]
        simp only [Bool.false_eq_true, if_false, if_true, List.length_cons]
        exact Nat.le_succ_of_le ih
    · have h2 : a ∉ V := fun hc => h1 (h a hc)
      have hb1 : (!V'.contains a) = true := by simp [h1]
      have hb2 : (!V.contains a) = true := by simp [h2]
      rw [hb1, hb2]
      simp only [if_true, List.length_cons]
      exact Nat.succ_le_succ ih

theorem missingCount_lt {U V : List String} {c : String} (hcU : c ∈ U) (hcV : c ∉ V) :
    missingCount U (c :: V) < missingCount U V := by
  induction U with
  | nil => cases hcU
  | cons a U ih =>
    unfold missingCount at *
    rw [List.filter_cons, List.filter_cons]
    by_cases hac : a = c
    · subst hac
      have hb1 : (!(a :: V).contains a) = false := by simp
      have hb2 : (!V.contains a) = true := by simp [hcV]
      rw [hb1, hb2]
      simp only [Bool.false_eq_true, if_false, if_true, List.length_cons]
      have hle : (U.filter (fun x => !(a :: V).contains x)).length
          ≤ (U.filter (fun x => !V.contains x)).length := by
        have hm : missingCount U (a :: V) ≤ missingCount U V :=
          missingCount_mono (fun x hx => List.mem_cons_of_mem a hx) U
        unfold missingCount at hm
        exact hm
      omega
    · rcases List.mem_cons.mp hcU with h | h
      · exact absurd h.symm hac
      · by_cases hav : a ∈ V
        · have hb1 : (!(c :: V).contains a) = false := by
            simp [List.mem_cons_of_mem c hav]
          have hb2 : (!V.contains a) = false := by simp [hav]
          rw [hb1, hb2]
          simp only [Bool.false_eq_true, if_false]
          exact ih h
        · have hacv : a ∉ c :: V := by
            intro hcc
            rcases List.mem_cons.mp hcc with h1 | h1
            · exact hac h1
            · exact hav h1
          have hb1 : (!(c :: V).contains a) = true := by simp [hacv]
          have hb2 : (!V.contains a) = true := by simp [hav]
          rw [hb1, hb2]
          simp only [if_true, List.length_cons]
          exact Nat.succ_lt_succ (ih h)

/-- Completeness invariant of the DFS: a failed search has visited its start
node, and every newly visited node is not the target and has all of its
successors visited.  The fuel hypothesis (more fuel than unvisited universe
nodes, where the universe contains the start and every edge target) shows the
fuel is never exhausted — mirroring the JS recursion, which terminates
because the shared visited set grows at every level. -/
theorem hasCycleAux_false_inv {g : List (String × List String)} {target : String}
    {U : List String} (hU : ∀ x y, depEdge g x y → y ∈ U) :
    ∀ fuel current visited, current ∈ U → missingCount U visited < fuel →
      (hasCycleAux g target fuel current visited).1 = false →
      current ∈ (hasCycleAux g target fuel current visited).2 ∧
      NewClosed g target visited (hasCycleAux g target fuel current visited).2 := by
  intro fuel
  induction fuel with
  | zero =>
    intro c V hc hf
    exact absurd hf (Nat.not_lt_zero _)
  | succ fuel ih =>
    have hfold : ∀ (ds : List String) (acc : Bool × List String),
        (∀ d ∈ ds, d ∈ U) → missingCount U acc.2 < fuel →
        (hasCycleFold g target fuel acc ds).1 = false →
        (∀ d ∈ ds, d ∈ (hasCycleFold g target fuel acc ds).2) ∧
        NewClosed g target acc.2 (hasCycleFold g target fuel acc ds).2 := by
      intro ds
      induction ds with
      | nil =>
        intro acc hds hf hres
        exact ⟨fun d hd => absurd hd (List.not_mem_nil d),
          fun x hx hnx => absurd hx hnx⟩
      | cons d ds ihd =>
        intro acc hds hf hres
        rw [hasCycleFold_cons] at hres ⊢
        by_cases hb : acc.1 = true
        · rw [if_pos hb, hasCycleFold_of_true hb] at hres
          rw [hb] at hres
          cases hres
        · rw [if_neg hb] at hres ⊢
          by_cases hA : (hasCycleAux g target fuel d acc.2).1 = true
          · rw [hasCycleFold_of_true hA] at hres
            rw [hA] at hres
            cases hres
          · have hA1 : (hasCycleAux g target fuel d acc.2).1 = false :=
              Bool.eq_false_iff.mpr hA
            rcases ih d acc.2 (hds d (List.mem_cons_self d ds)) hf hA1 with ⟨hdA, hclosedA⟩
            have hmonoA : ∀ x ∈ acc.2, x ∈ (hasCycleAux g target fuel d acc.2).2 :=
              hasCycleAux_mono fuel d acc.2
            have hf2 : missingCount U (hasCycleAux g target fuel d acc.2).2 < fuel :=
              Nat.lt_of_le_of_lt (missingCount_mono hmonoA U) hf
            rcases ihd (hasCycleAux g target fuel d acc.2)
              (fun q hq => hds q (List.mem_cons_of_mem d hq)) hf2 hres with ⟨hmem2, hclosed2⟩
            refine ⟨?_, ?_⟩
            · intro q hq
              rcases List.mem_cons.mp hq with h | h
              · rw [h]
                exact hasCycleFold_mono ds _ d hdA
              · exact hmem2 q h
            · intro x hx hnx
              by_cases hxA : x ∈ (hasCycleAux g target fuel d acc.2).2
              · rcases hclosedA x hxA hnx with ⟨hxt, hsucc⟩
                exact ⟨hxt, fun y hy => hasCycleFold_mono ds _ y (hsucc y hy)⟩
              · exact hclosed2 x hx hxA
    intro c V hc hf hres
    rw [hasCycleAux_succ] at hres ⊢
    by_cases h1 : c = target
    · rw [if_pos h1] at hres
      cases hres
    · rw [if_neg h1] at hres ⊢
      by_cases h2 : c ∈ V
      · rw [if_pos h2] at hres ⊢
        exact ⟨h2, fun x hx hnx => absurd hx hnx⟩
      · rw [if_neg h2] at hres ⊢
        have hdsU : ∀ d ∈ (g.lookup c).getD [], d ∈ U := by
          intro d hd
          cases hl : g.lookup c with
          | none => rw [hl] at hd; cases hd
          | some l =>
            rw [hl] at hd
            exact hU c d ⟨l, hl, hd⟩
        have hf2 : missingCount U (c :: V) < fuel := by
          have h3 := missingCount_lt hc h2
          omega
        rcases hfold _ _ hdsU hf2 hres with ⟨hds_mem, hclosed⟩
        refine ⟨hasCycleFold_mono _ _ c (List.mem_cons_self c V), ?_⟩
        intro x hx hnx
        by_cases hxc : x = c
        · subst hxc
          refine ⟨h1, ?_⟩
          rintro y ⟨l, hl, hyl⟩
          have hy2 : y ∈ (g.lookup x).getD [] := by rw [hl]; exact hyl
          exact hds_mem y hy2
        · have hx2 : x ∉ c :: V := by
            intro hcc
            rcases List.mem_cons.mp hcc with h | h
            · exact hxc h
            · exact hnx h
          exact hclosed x hx hx2

/-- A failed top-level DFS call means the target is unreachable from the
start node. -/
theorem hasCycleAux_complete {g : List (String × List String)} {target : String}
    {U : List String} (hU : ∀ x y, depEdge g x y → y ∈ U)
    {fuel : Nat} {d : String} (hdU : d ∈ U) (hfuel : missingCount U [] < fuel)
    (hres : (hasCycleAux g target fuel d []).1 = false) :
    ¬ Relation.ReflTransGen (depEdge g) d target := by
  intro hreach
  rcases hasCycleAux_false_inv hU fuel d [] hdU hfuel hres with ⟨hdV, hclosed⟩
  have key : ∀ x, Relation.ReflTransGen (depEdge g) x target →
      x ∈ (hasCycleAux g target fuel d []).2 → False := by
    intro x hx
    induction hx using Relation.ReflTransGen.head_induction_on with
    | refl =>
      intro ht
      exact (hclosed target ht (List.not_mem_nil target)).1 rfl
    | head hedge htail ihx =>
      intro hxin
      exact ihx ((hclosed _ hxin (List.not_mem_nil _)).2 _ hedge)
  exact key d hreach hdV

theorem missingCount_le (U V : List String) : missingCount U V ≤ U.length :=
  List.length_filter_le _ _

theorem detectCycle_eq (store : Store) (newId : String) (newDeps : List String) :
    detectCycle store newId newDeps =
      (newDeps.find? (fun d =>
          (hasCycleAux ((newId, newDeps) :: buildGraph store) newId
            (dfsFuel ((newId, newDeps) :: buildGraph store)) d []).1)).map
        (fun d => "Adding task " ++ newId ++ " would create a circular dependency with "
          ++ d) := rfl

/-- detectCycle decides exactly whether the candidate id is reachable from one
of its dependencies in the graph extended with the candidate's edges. -/
theorem detectCycle_isSome_iff (store : Store) (newId : String)
    (newDeps : List String) :
    (detectCycle store newId newDeps).isSome = true ↔
      ∃ d ∈ newDeps, Relation.ReflTransGen
        (depEdge ((newId, newDeps) :: buildGraph store)) d newId := by
  rw [detectCycle_eq]
  constructor
  · intro h
    cases hf : newDeps.find? (fun d =>
        (hasCycleAux ((newId, newDeps) :: buildGraph store) newId
          (dfsFuel ((newId, newDeps) :: buildGraph store)) d []).1) with
    | none =>
      rw [hf] at h
      cases h
    | some d =>
      have hd := List.mem_of_find?_eq_some hf
      have hp := List.find?_some hf
      exact ⟨d, hd, hasCycleAux_sound _ d [] hp⟩
  · rintro ⟨d, hd, hreach⟩
    have hdU : d ∈ nodeList ((newId, newDeps) :: buildGraph store) :=
      mem_nodeList_value (List.mem_cons_self _ _) hd
    have hp : (hasCycleAux ((newId, newDeps) :: buildGraph store) newId
        (dfsFuel ((newId, newDeps) :: buildGraph store)) d []).1 = true := by
      by_cases hc : (hasCycleAux ((newId, newDeps) :: buildGraph store) newId
          (dfsFuel ((newId, newDeps) :: buildGraph store)) d []).1 = true
      · exact hc
      · exfalso
        have hfl := Bool.eq_false_iff.mpr hc
        have hfuel : missingCount (nodeList ((newId, newDeps) :: buildGraph store)) []
            < dfsFuel ((newId, newDeps) :: buildGraph store) := by
          have := missingCount_le (nodeList ((newId, newDeps) :: buildGraph store)) []
          unfold dfsFuel
          omega
        exact hasCycleAux_complete (fun x y he => depEdge_target_mem_nodeList he)
          hdU hfuel hfl hreach
    cases hf : newDeps.find? (fun d =>
        (hasCycleAux ((newId, newDeps) :: buildGraph store) newId
          (dfsFuel ((newId, newDeps) :: buildGraph store)) d []).1) with
    | none =>
      exfalso
      have := List.find?_eq_none.mp hf d hd
      exact this hp
    | some d2 => rfl

/-! Transfer between the extended graph and the store's own graph, given that
the candidate id owns no row (check 4). -/

theorem depEdge_cons_iff {newId : String} {newDeps : List String}
    {g0 : List (String × List String)} {x y : String} :
    depEdge ((newId, newDeps) :: g0) x y ↔
      (x = newId ∧ y ∈ newDeps) ∨ (x ≠ newId ∧ depEdge g0 x y) := by
  unfold depEdge
  by_cases hx : x = newId
  · subst hx
    constructor
    · rintro ⟨l, hl, hy⟩
      rw [lookup_cons_self] at hl
      refine Or.inl ⟨rfl, ?_⟩
      rw [Option.some.inj hl]
      exact hy
    · rintro (⟨-, hy⟩ | ⟨hne, -⟩)
      · exact ⟨newDeps, lookup_cons_self, hy⟩
      · exact absurd rfl hne
  · constructor
    · rintro ⟨l, hl, hy⟩
      rw [lookup_cons_ne hx] at hl
      exact Or.inr ⟨hx, l, hl, hy⟩
    · rintro (⟨he, -⟩ | ⟨-, l, hl, hy⟩)
      · exact absurd he hx
      · refine ⟨l, ?_, hy⟩
        rw [lookup_cons_ne hx]
        exact hl

theorem reach_new_to_old {newId : String} {newDeps : List String}
    {g0 : List (String × List String)} :
    ∀ x, Relation.ReflTransGen (depEdge ((newId, newDeps) :: g0)) x newId →
      Relation.ReflTransGen (depEdge g0) x newId := by
  intro x hx
  induction hx using Relation.ReflTransGen.head_induction_on with
  | refl => exact Relation.ReflTransGen.refl
  | @head a c hedge htail ihx =>
    by_cases ha : a = newId
    · exact ha ▸ Relation.ReflTransGen.refl
    · rcases depEdge_cons_iff.mp hedge with ⟨he, -⟩ | ⟨-, hold⟩
      · exact absurd he ha
      · exact Relation.ReflTransGen.head hold ihx

theorem edge_old_to_new {newId : String} {newDeps : List String}
    {g0 : List (String × List String)} (hnone : g0.lookup newId = none)
    {x y : String} (h : depEdge g0 x y) : depEdge ((newId, newDeps) :: g0) x y := by
  have hx : x ≠ newId := by
    rintro rfl
    rcases h with ⟨l, hl, -⟩
    rw [hnone] at hl
    cases hl
  exact depEdge_cons_iff.mpr (Or.inr ⟨hx, h⟩)

theorem reach_old_to_new {newId : String} {newDeps : List String}
    {g0 : List (String × List String)} (hnone : g0.lookup newId = none)
    {x y : String} (h : Relation.ReflTransGen (depEdge g0) x y) :
    Relation.ReflTransGen (depEdge ((newId, newDeps) :: g0)) x y :=
  Relation.ReflTransGen.mono (fun _ _ he => edge_old_to_new hnone he) h

/-- Decomposition of a walk in the extended graph: either it stays inside the
old graph, or it reaches the candidate id inside the old graph and continues
from one of the new dependencies. -/
theorem reach_new_decompose {newId : String} {newDeps : List String}
    {g0 : List (String × List String)} :
    ∀ x y, Relation.ReflTransGen (depEdge ((newId, newDeps) :: g0)) x y →
      Relation.ReflTransGen (depEdge g0) x y ∨
      (Relation.ReflTransGen (depEdge g0) x newId ∧
       ∃ d ∈ newDeps, Relation.ReflTransGen (depEdge ((newId, newDeps) :: g0)) d y) := by
  intro x y hx
  induction hx using Relation.ReflTransGen.head_induction_on with
  | refl => exact Or.inl Relation.ReflTransGen.refl
  | @head a c hedge htail ihx =>
    by_cases ha : a = newId
    · subst ha
      right
      refine ⟨Relation.ReflTransGen.refl, ?_⟩
      rcases depEdge_cons_iff.mp hedge with ⟨-, hc⟩ | ⟨hne, -⟩
      · exact ⟨c, hc, htail⟩
      · exact absurd rfl hne
    · rcases depEdge_cons_iff.mp hedge with ⟨he, -⟩ | ⟨-, hold⟩
      · exact absurd he ha
      · rcases ihx with hL | ⟨hR1, hR2⟩
        · exact Or.inl (Relation.ReflTransGen.head hold hL)
        · exact Or.inr ⟨Relation.ReflTransGen.head hold hR1, hR2⟩

/-- With an acyclic store graph, adding the candidate's edges creates a cycle
iff the candidate id is reachable from one of its dependencies in the store
graph. -/
theorem newGraph_cycle_iff {store : Store} {newId : String} {newDeps : List String}
    (hnone : (buildGraph store).lookup newId = none)
    (hacy : Acyclic (buildGraph store)) :
    (¬ Acyclic ((newId, newDeps) :: buildGraph store)) ↔
      ∃ d ∈ newDeps, Relation.ReflTransGen (depEdge (buildGraph store)) d newId := by
  constructor
  · intro h
    rw [Acyclic, not_not] at h
    rcases h with ⟨x, hx⟩
    rcases Relation.TransGen.head'_iff.mp hx with ⟨z, hedge, hreach⟩
    by_cases hxid : x = newId
    · subst hxid
      rcases depEdge_cons_iff.mp hedge with ⟨-, hz⟩ | ⟨hne, -⟩
      · exact ⟨z, hz, reach_new_to_old z hreach⟩
      · exact absurd rfl hne
    · rcases depEdge_cons_iff.mp hedge with ⟨he, -⟩ | ⟨-, hold⟩
      · exact absurd he hxid
      · rcases reach_new_decompose z x hreach with hL | ⟨hR1, d, hd, hdx⟩
        · exact absurd ⟨x, Relation.TransGen.head' hold hL⟩ hacy
        · have hxnew : Relation.ReflTransGen (depEdge (buildGraph store)) x newId :=
            Relation.ReflTransGen.head hold hR1
          have hdnew : Relation.ReflTransGen
              (depEdge ((newId, newDeps) :: buildGraph store)) d newId :=
            hdx.trans (reach_old_to_new hnone hxnew)
          exact ⟨d, hd, reach_new_to_old d hdnew⟩
  · rintro ⟨d, hd, hreach⟩
    rw [Acyclic, not_not]
    have hedge : depEdge ((newId, newDeps) :: buildGraph store) newId d :=
      depEdge_cons_iff.mpr (Or.inl ⟨rfl, hd⟩)
    exact ⟨newId, Relation.TransGen.head' hedge (reach_old_to_new hnone hreach)⟩

/-! Reduction of validateTaskInput to the cycle check under checks 1-7. -/

theorem checkDeps_none {store : Store} {inputId : String} :
    ∀ deps, (∀ d ∈ deps, ¬(d = "" ∨ d.data.all Char.isWhitespace) ∧ d ≠ inputId ∧
        (getTask store d).isSome = true) →
      checkDeps store inputId deps = none := by
  intro deps
  induction deps with
  | nil => intro h; rfl
  | cons d ds ih =>
    intro h
    rcases h d (List.mem_cons_self d ds) with ⟨h1, h2, h3⟩
    unfold checkDeps
    rw [if_neg h1, if_neg h2, if_neg (by
      rw [Option.isNone_iff_eq_none]
      intro hc
      rw [hc] at h3
      cases h3)]
    exact ih (fun q hq => h q (List.mem_cons_of_mem d hq))

theorem validateTaskInput_eq_detectCycle {store : Store} {input : TaskInput}
    (h : checksOneToSeven store input) :
    validateTaskInput store input
      = detectCycle store input.id (input.dependencies.getD []) := by
  rcases h with ⟨h1, h2, h3, h4, h5⟩
  unfold validateTaskInput
  rw [if_neg h1, if_neg h2, if_neg (by omega : ¬ input.duration_ms < 0),
    if_neg (by rw [h4]; exact Bool.false_ne_true)]
  simp only [checkDeps_none _ h5]

/-- C6: under checks 1-7, validation rejects the input iff the candidate id is
reachable from one of its listed dependencies along dependency edges of the
store's existing graph; equivalently (when the existing graph is acyclic, as
invariant I3 guarantees), iff adding the edges from the new id to its
dependencies creates a cycle. -/
theorem validateTaskInput_cycle_check (store : Store) (input : TaskInput)
    (hnd : (store.map TaskRow.id).Nodup)
    (hchecks : checksOneToSeven store input) :
    ((validateTaskInput store input).isSome = true ↔
      ∃ d ∈ input.dependencies.getD [],
        Relation.ReflTransGen (depEdge (buildGraph store)) d input.id) ∧
    (Acyclic (buildGraph store) →
      ((validateTaskInput store input).isSome = true ↔
        ¬ Acyclic ((input.id, input.dependencies.getD []) :: buildGraph store))) := by
  have hnone : (buildGraph store).lookup input.id = none := by
    apply lookup_eq_none
    intro p hp
    rcases List.mem_map.mp hp with ⟨t, ht, hpt⟩
    rw [← hpt]
    exact getTask_none.mp hchecks.2.2.2.1 t ht
  have hval := validateTaskInput_eq_detectCycle hchecks
  have hfirst : (validateTaskInput store input).isSome = true ↔
      ∃ d ∈ input.dependencies.getD [],
        Relation.ReflTransGen (depEdge (buildGraph store)) d input.id := by
    rw [hval, detectCycle_isSome_iff]
    constructor
    · rintro ⟨d, hd, hreach⟩
      exact ⟨d, hd, reach_new_to_old d hreach⟩
    · rintro ⟨d, hd, hreach⟩
      exact ⟨d, hd, reach_old_to_new hnone hreach⟩
  refine ⟨hfirst, ?_⟩
  intro hacy
  exact hfirst.trans (newGraph_cycle_iff hnone hacy).symm

/-- Witness for the C6 theorem at a concrete store and input. -/
theorem validateTaskInput_cycle_check_witness :
    (((validateTaskInput c6Store c6Input).isSome = true ↔
      ∃ d ∈ c6Input.dependencies.getD [],
        Relation.ReflTransGen (depEdge (buildGraph c6Store)) d c6Input.id) ∧
    (Acyclic (buildGraph c6Store) →
      ((validateTaskInput c6Store c6Input).isSome = true ↔
        ¬ Acyclic ((c6Input.id, c6Input.dependencies.getD [])
            :: buildGraph c6Store)))) :=
  validateTaskInput_cycle_check c6Store c6Input (by decide) (by decide)

end TaskScheduler
